import Mathlib

/-!
Verification of the uDSV CSV parser (src/uDSV.js, the library source, and
dist/uDSV.cjs.js, the built v0.1.0 distribution) against its natural-language
specification.

The JavaScript code is shallowly embedded: strings are lists of characters,
JavaScript array/string primitives (`indexOf`, `slice`, `charCodeAt`, `split`)
are modelled with their ECMAScript semantics (negative-index wrapping, NaN as
`Option.none`), the tokenizer's `while` loop becomes an explicit step function
driven by fuel, and the chunk callback is modelled by accumulating the list of
chunks passed to it, in call order.
-/

set_option maxRecDepth 10000

/-- Characters of a JavaScript string, in order. -/
abbrev JStr := List Char

/-- Coerce a Lean string literal to the character-list representation. -/
def sToL (s : String) : JStr := s.data

/-! ## JavaScript string/array primitives -/

/-- Search loop behind `findSubFrom`, structurally recursive on a step
budget so that it evaluates by kernel reduction. -/
def findSubFromAux (hay needle : JStr) : Nat → Nat → Option Nat
  | _, 0 => none
  | start, fuel + 1 =>
    if start ≤ hay.length then
      if needle.isPrefixOf (hay.drop start) then some start
      else if start = hay.length then none
      else findSubFromAux hay needle (start + 1) fuel
    else none

/-- First position at or after `start` where `needle` occurs as a contiguous
subsequence of `hay`; `none` when there is no such occurrence.  The empty
needle occurs at every position up to `hay.length`, as in ECMAScript. -/
def findSubFrom (hay needle : JStr) (start : Nat) : Option Nat :=
  findSubFromAux hay needle start (hay.length + 1 - start)

/-- ECMAScript `hay.indexOf(needle, from)`: the possibly-negative `from` is
clamped into `[0, hay.length]`, and the result is `-1` when absent. -/
def jsIndexOf (hay needle : JStr) (i : Int) : Int :=
  match findSubFrom hay needle (min i.toNat hay.length) with
  | some n => (n : Int)
  | none => -1

/-- ECMAScript `s.slice(a, b)`: negative indices count from the end, and the
result is empty when the effective start is at or past the effective end. -/
def jsSlice (s : JStr) (a b : Int) : JStr :=
  let n : Int := s.length
  let la : Nat := (if a < 0 then max (n + a) 0 else min a n).toNat
  let lb : Nat := (if b < 0 then max (n + b) 0 else min b n).toNat
  (s.drop la).take (lb - la)

/-- ECMAScript `s.charCodeAt(i)`: the character at `i`, or `none` (NaN) when
`i` is out of range. -/
def jsCharCodeAt (s : JStr) (i : Int) : Option Char :=
  if h : 0 ≤ i ∧ i < (s.length : Int) then
    some (s.get ⟨i.toNat, by omega⟩)
  else none

/-- Strict equality of two possibly-NaN character codes: NaN (`none`) is
equal to nothing, matching `NaN === x` in JavaScript. -/
def jsEqC (a b : Option Char) : Bool :=
  match a, b with
  | some x, some y => x = y
  | _, _ => false

/-- ECMAScript array element assignment `arr[i] = x` on an array whose holes
are `none`: assigning past the current length extends the array with holes. -/
def jsArrSet (row : List (Option JStr)) (i : Nat) (x : JStr) : List (Option JStr) :=
  if i < row.length then row.set i (some x)
  else row ++ List.replicate (i - row.length) none ++ [some x]

/-- ECMAScript assignment `arr[i] = c` for the character-typed `types` array
of the schema prober, with the same hole-extension rule. -/
def jsArrSetC (ts : List (Option Char)) (i : Nat) (x : Char) : List (Option Char) :=
  if i < ts.length then ts.set i (some x)
  else ts ++ List.replicate (i - ts.length) none ++ [some x]

/-- ECMAScript `s.split(sep)` for a single-character separator: the list of
maximal separator-free segments; never empty. -/
def jsSplitC (s : JStr) (sep : Char) : List JStr :=
  match s with
  | [] => [[]]
  | c :: t =>
    match jsSplitC t sep with
    | [] => [[]]
    | h :: rest => if c = sep then [] :: h :: rest else (c :: h) :: rest

/-- ECMAScript `s.split(sep)` where `sep` may be `undefined` (as happens when
no column delimiter was sniffed): `split(undefined)` returns `[s]`. -/
def jsSplitOpt (s : JStr) (sep : Option Char) : List JStr :=
  match sep with
  | none => [s]
  | some c => jsSplitC s c

/-- ECMAScript `parts.join(sep)` for a single-character separator. -/
def jsJoin (sep : Char) : List JStr → JStr
  | [] => []
  | [x] => x
  | x :: y :: t => x ++ sep :: jsJoin sep (y :: t)

/-- Decimal digit string of a natural number, used to model `Object.keys` of
an array (whose keys are the decimal index strings). -/
def natDigits (n : Nat) : JStr :=
  Nat.toDigits 10 n

/-- ECMAScript `Object.keys(row)` for an array with holes: the decimal index
strings of the slots that are set, in ascending order. -/
def jsObjectKeys (row : List (Option JStr)) : List JStr :=
  row.enum.filterMap fun p => match p.2 with
    | some _ => some (natDigits p.1)
    | none => none

/-- ECMAScript `Object.values(row)` for an array with holes: the set slots,
in ascending index order. -/
def jsObjectValues (row : List (Option JStr)) : List JStr :=
  row.filterMap id

/-! ## JavaScript numeric-string predicates

The schema prober asks `!Number.isNaN(+val)` and the coercion compiler asks
`!Number.isNaN(Number.parseFloat(v))`; these are distinct grammars
(`Number(..)` trims and accepts `""`, hex, octal and binary literals and
requires the whole string to match; `parseFloat` takes the longest valid
decimal prefix). -/

/-- Inclusive character-range test. -/
def charBetween (lo hi c : Char) : Bool :=
  decide (lo ≤ c) && decide (c ≤ hi)

/-- Hexadecimal digit test. -/
def isHexDigit (c : Char) : Bool :=
  c.isDigit || charBetween 'a' 'f' c || charBetween 'A' 'F' c

/-- ECMAScript whitespace trimmed by `Number(string)` conversion (the common
ASCII subset, which covers every input in this development). -/
def jsIsSpace (c : Char) : Bool :=
  c == ' ' || c == '\t' || c == '\n' || c == '\r' || c == '\x0b' || c == '\x0c'

/-- Digits consumed from the front of a string; returns the count and rest. -/
def takeDigits (s : JStr) : Nat × JStr :=
  match s with
  | c :: t => if c.isDigit then let (n, r) := takeDigits t; (n + 1, r) else (0, s)
  | [] => (0, [])

/-- Optional exponent then end of string, for the full-string decimal
grammar: `[eE] [+-]? digits` or nothing. -/
def expEnd (s : JStr) : Bool :=
  match s with
  | [] => true
  | e :: r4 =>
    if e == 'e' || e == 'E' then
      let r5 := match r4 with
        | c :: t => if c == '+' || c == '-' then t else r4
        | [] => r4
      let (n3, r6) := takeDigits r5
      decide (n3 > 0) && r6.isEmpty
    else false

/-- Decimal-significand tail of the `StrDecimalLiteral` grammar, after an
optional sign: `digits [. digits] [exp]` or `. digits [exp]`, matching the
whole string. -/
def decTail (s : JStr) : Bool :=
  let (n1, r1) := takeDigits s
  match r1 with
  | '.' :: r2 =>
    let (n2, r3) := takeDigits r2
    if n1 + n2 = 0 then false else expEnd r3
  | [] => decide (n1 > 0)
  | r => decide (n1 > 0) && expEnd r

/-- Whether `Number(s)` (the unary `+val` of the schema prober) yields a
non-NaN value: after trimming, the empty string converts to `0`, and
otherwise the whole string must be a signed decimal/`Infinity` literal or an
unsigned `0x`/`0o`/`0b` radix literal. -/
def jsNumberNotNaN (s : JStr) : Bool :=
  let t := ((s.dropWhile jsIsSpace).reverse.dropWhile jsIsSpace).reverse
  match t with
  | [] => true
  | _ =>
    let signed := match t with
      | c :: r => if c == '+' || c == '-' then r else t
      | [] => t
    let radix : Bool := match t with
      | '0' :: x :: ds =>
        ((x == 'x' || x == 'X') && !ds.isEmpty && ds.all isHexDigit) ||
        ((x == 'o' || x == 'O') && !ds.isEmpty && ds.all (charBetween '0' '7')) ||
        ((x == 'b' || x == 'B') && !ds.isEmpty && ds.all (fun c => c == '0' || c == '1'))
      | _ => false
    decTail signed || signed == sToL "Infinity" || radix

/-- Value of a digit character. -/
def digitVal (c : Char) : Nat := c.toNat - '0'.toNat

/-- Natural number denoted by a digit prefix: returns the count of digits
taken, the accumulated value, and the rest of the string. -/
def readDigits (acc : Nat) : JStr → Nat × Nat × JStr
  | c :: t =>
    if c.isDigit then
      match readDigits (acc * 10 + digitVal c) t with
      | (n, v, r) => (n + 1, v, r)
    else (0, acc, c :: t)
  | [] => (0, acc, [])

/-- Result of `Number.parseFloat`: NaN, a signed infinity, or the exact
value of the parsed decimal literal, carried as a mantissa and a decimal
exponent — `val m e` denotes `m · 10^e` (unnormalized, so kernel
evaluation needs no gcd). -/
inductive PFloat where
  | nan : PFloat
  | inf : Bool → PFloat
  | val : Int → Int → PFloat
deriving DecidableEq, Repr

/-- ECMAScript `Number.parseFloat(s)`: trims leading whitespace, then parses
the longest prefix matching `[+-]? (Infinity | digits [. digits] [exp] |
. digits [exp])`, yielding NaN when no prefix matches.  The decimal value is
represented exactly as mantissa times a power of ten. -/
def jsParseFloat (s : JStr) : PFloat :=
  let t := s.dropWhile jsIsSpace
  let (neg, r) := match t with
    | '-' :: r => (true, r)
    | '+' :: r => (false, r)
    | _ => (false, t)
  if (sToL "Infinity").isPrefixOf r then PFloat.inf neg
  else
    match readDigits 0 r with
    | (n1, v1, r1) =>
      let (haveDig, mant, fracLen, r3) :=
        match r1 with
        | '.' :: r2 =>
          (match readDigits v1 r2 with
           | (n2, v2, r3) => (decide (n1 + n2 > 0), v2, n2, r3))
        | _ => (decide (n1 > 0), v1, 0, r1)
      if haveDig then
        let e : Int :=
          match r3 with
          | c :: r4 =>
            if c == 'e' || c == 'E' then
              let (esign, r5) := match r4 with
                | '-' :: t2 => (true, t2)
                | '+' :: t2 => (false, t2)
                | _ => (false, r4)
              match readDigits 0 r5 with
              | (ne, ve, _) => if ne > 0 then (if esign then -(ve : Int) else (ve : Int)) else 0
            else 0
          | [] => 0
        PFloat.val (if neg then -(mant : Int) else (mant : Int)) (e - (fracLen : Int))
      else PFloat.nan

/-- The ISO-8601 timestamp pattern of the coercion compiler, the regular
expression
`^\d{4}-\d{2}-\d{2}T\d{2}:\d{2}:\d{2}(?:\.\d{3,})?(?:Z|[-+]\d{2}:?\d{2})$`. -/
def iso8601Test (s : JStr) : Bool :=
  let dig (n : Nat) (r : JStr) : Option JStr :=
    if (r.take n).length = n ∧ (r.take n).all Char.isDigit then some (r.drop n) else none
  let step (c : Char) (r : JStr) : Option JStr :=
    match r with
    | x :: t => if x = c then some t else none
    | [] => none
  let core : Option JStr := do
    let r ← dig 4 s
    let r ← step '-' r
    let r ← dig 2 r
    let r ← step '-' r
    let r ← dig 2 r
    let r ← step 'T' r
    let r ← dig 2 r
    let r ← step ':' r
    let r ← dig 2 r
    let r ← step ':' r
    let r ← dig 2 r
    pure r
  match core with
  | none => false
  | some r =>
    let afterFrac :=
      match r with
      | '.' :: t =>
        let (n, rest) := takeDigits t
        if n ≥ 3 then rest else r
      | _ => r
    match afterFrac with
    | ['Z'] => true
    | c :: t =>
      (c == '+' || c == '-') &&
      (match t with
       | [a, b, x, d, e2] => a.isDigit && b.isDigit && x == ':' && d.isDigit && e2.isDigit
       | [a, b, d, e2] => a.isDigit && b.isDigit && d.isDigit && e2.isDigit
       | _ => false)
    | [] => false

/-- Case-insensitive boolean-literal test `/^(?:true|false)$/i`. -/
def boolLitTest (s : JStr) : Bool :=
  let l := s.map Char.toLower
  l == sToL "true" || l == sToL "false"

/-! ### A JSON validity checker, for the `JSON.parse` try of the coercion
compiler.  Only validity is needed (a failed parse leaves the column a
string), so the checker consumes a value and returns the unconsumed rest. -/

/-- JSON insignificant whitespace. -/
def jsonWs (c : Char) : Bool :=
  c == ' ' || c == '\t' || c == '\n' || c == '\r'

/-- Consume the tail of a JSON string literal after the opening quote. -/
def jsonStringTail : JStr → Option JStr
  | '"' :: t => some t
  | '\\' :: e :: t =>
    if e == '"' || e == '\\' || e == '/' || e == 'b' || e == 'f' ||
       e == 'n' || e == 'r' || e == 't'
    then jsonStringTail t
    else if e == 'u' then
      if (t.take 4).length = 4 ∧ (t.take 4).all isHexDigit
      then jsonStringTail (t.drop 4) else none
    else none
  | c :: t => if c.toNat ≥ 0x20 then jsonStringTail t else none
  | [] => none
termination_by s => s.length
decreasing_by all_goals (simp [List.length_drop]; try omega)

/-- Consume the optional fraction and exponent of a JSON number. -/
def jsonNumFrac (s : JStr) : Option JStr :=
  let afterFrac : Option JStr :=
    match s with
    | '.' :: t =>
      let (n, r) := takeDigits t
      if n > 0 then some r else none
    | _ => some s
  match afterFrac with
  | none => none
  | some r =>
    match r with
    | e :: t =>
      if e == 'e' || e == 'E' then
        let t2 := match t with
          | c :: t2 => if c == '+' || c == '-' then t2 else t
          | [] => t
        let (n, r2) := takeDigits t2
        if n > 0 then some r2 else none
      else some r
    | [] => some r

/-- Consume a JSON number. -/
def jsonNumber (s : JStr) : Option JStr :=
  let r1 := match s with
    | '-' :: t => t
    | _ => s
  match r1 with
  | '0' :: t => jsonNumFrac t
  | c :: t =>
    if c.isDigit then
      let (_, r2) := takeDigits t
      jsonNumFrac r2
    else none
  | [] => none

mutual

/-- Consume one JSON value (after leading whitespace) from the front of the
string; `none` when the front is not a valid value.  Fuel bounds the
recursion depth. -/
def jsonVal (fuel : Nat) (s : JStr) : Option JStr :=
  match fuel with
  | 0 => none
  | f + 1 =>
    let s1 := s.dropWhile jsonWs
    match s1 with
    | '{' :: t =>
      let t1 := t.dropWhile jsonWs
      (match t1 with
       | '}' :: r => some r
       | _ => jsonMembers f t1)
    | '[' :: t =>
      let t1 := t.dropWhile jsonWs
      (match t1 with
       | ']' :: r => some r
       | _ => jsonElems f t1)
    | '"' :: t => jsonStringTail t
    | 't' :: t => if (sToL "rue").isPrefixOf t then some (t.drop 3) else none
    | 'f' :: t => if (sToL "alse").isPrefixOf t then some (t.drop 4) else none
    | 'n' :: t => if (sToL "ull").isPrefixOf t then some (t.drop 3) else none
    | _ => jsonNumber s1

/-- Consume the members of a JSON object after the opening brace (at least
one quoted key, a colon, a value, then a comma or the closing brace). -/
def jsonMembers (fuel : Nat) (s : JStr) : Option JStr :=
  match fuel with
  | 0 => none
  | f + 1 =>
    let s1 := s.dropWhile jsonWs
    match s1 with
    | '"' :: t =>
      (match jsonStringTail t with
       | none => none
       | some r =>
         match r.dropWhile jsonWs with
         | ':' :: r2 =>
           (match jsonVal f r2 with
            | none => none
            | some r3 =>
              match r3.dropWhile jsonWs with
              | ',' :: r4 => jsonMembers f r4
              | '}' :: r4 => some r4
              | _ => none)
         | _ => none)
    | _ => none

/-- Consume the elements of a JSON array after the opening bracket. -/
def jsonElems (fuel : Nat) (s : JStr) : Option JStr :=
  match fuel with
  | 0 => none
  | f + 1 =>
    match jsonVal f s with
    | none => none
    | some r =>
      match r.dropWhile jsonWs with
      | ',' :: r2 => jsonElems f r2
      | ']' :: r2 => some r2
      | _ => none

end

/-- Whether `JSON.parse(s)` succeeds: one value with only whitespace around
it. -/
def jsonOk (s : JStr) : Bool :=
  match jsonVal (s.length + 1) s with
  | some r => (r.dropWhile jsonWs).isEmpty
  | none => false

/-! ## Data model -/

/-- A row buffer: a JavaScript array of field strings, `none` for holes left
by rows with fewer fields than columns. -/
abbrev Row := List (Option JStr)

/-- The `cols` part of a schema: sniffed column delimiter (possibly
`undefined`), column names, column types (`'s'`/`'n'`, with holes possible
after out-of-range probe writes). -/
structure SchemaCols where
  delim : Option Char
  names : List JStr
  types : List (Option Char)
deriving DecidableEq, Repr

/-- The `rows` part of a schema: the sniffed row delimiter (0–2 chars). -/
structure SchemaRows where
  delim : JStr
deriving DecidableEq, Repr

/-- The schema object of src/uDSV.js: `quote` is `''` (no quoting) or `'"'`. -/
structure USchema where
  quote : JStr
  cols : SchemaCols
  rows : SchemaRows
deriving DecidableEq, Repr

/-- The candidate column delimiters, in priority order. -/
def COL_DELIMS : List Char := ['\t', '|', ';', ',']

/-- Rows per callback chunk. -/
def CHUNK_SIZE : Nat := 5000

/-- The quote character. -/
def quoteChar : Char := '"'

/-! ## The quote-free fast path -/

/-- The quote-free fast path of `parse` in src/uDSV.js (lines 78–101): rows
are produced by locating successive row-delimiter boundaries and splitting
each row substring on the column delimiter.  `limit` is the row limit
(`rows.length === limit` breaks the loop), full `CHUNK_SIZE` chunks go to
the callback, and a final nonempty partial chunk is flushed after the loop.
The result is the list of chunks passed to `cb` in order; `none` is fuel
exhaustion (matching source divergence on an empty row delimiter). -/
def Src.parseNoQuote (csv rowDelim : JStr) (colDelim : Option Char)
    (limit : Option Nat) (fuel : Nat) (pos : Nat)
    (rows : List (List JStr)) (chunks : List (List (List JStr))) :
    Option (List (List (List JStr))) :=
  match fuel with
  | 0 => none
  | f + 1 =>
    match findSubFrom csv rowDelim pos with
    | none => some (if rows.isEmpty then chunks else chunks ++ [rows])
    | some idx =>
      let rows1 := rows ++ [jsSplitOpt (jsSlice csv pos idx) colDelim]
      let pos1 := idx + rowDelim.length
      if limit = some rows1.length then some (chunks ++ [rows1])
      else if rows1.length = CHUNK_SIZE then
        Src.parseNoQuote csv rowDelim colDelim limit f pos1 [] (chunks ++ [rows1])
      else
        Src.parseNoQuote csv rowDelim colDelim limit f pos1 rows1 chunks

/-- The quote-free fast path of the built `parse` (dist/uDSV.cjs.js lines
163–186): chunks are flushed at `chunkSize` rows together with the running
chunk index, and `chunkLimit` stops the scan right after that many chunks.
The result is the list of `(chunk, chunkIndex)` argument pairs passed to
`cb`, in call order. -/
def Dist.parseNoQuote (csv rowDelim : JStr) (colDelim : Option Char)
    (chunkSize : Nat) (chunkLimit : Option Nat) (fuel : Nat) (pos : Nat)
    (rows : List (List JStr)) (numChunks : Nat)
    (chunks : List (List (List JStr) × Nat)) :
    Option (List (List (List JStr) × Nat)) :=
  match fuel with
  | 0 => none
  | f + 1 =>
    match findSubFrom csv rowDelim pos with
    | none => some (if rows.isEmpty then chunks else chunks ++ [(rows, numChunks)])
    | some idx =>
      let rows1 := rows ++ [jsSplitOpt (jsSlice csv pos idx) colDelim]
      let pos1 := idx + rowDelim.length
      if rows1.length = chunkSize then
        let chunks1 := chunks ++ [(rows1, numChunks)]
        if chunkLimit = some (numChunks + 1) then some chunks1
        else Dist.parseNoQuote csv rowDelim colDelim chunkSize chunkLimit f
          pos1 [] (numChunks + 1) chunks1
      else Dist.parseNoQuote csv rowDelim colDelim chunkSize chunkLimit f
        pos1 rows1 numChunks chunks

/-! ## The quoted state-machine path, src/uDSV.js -/

/-- Static parameters of the quoted-path loop of src/uDSV.js: the input, the
delimiters (`colDelim` dereferenced, since the source reads
`colDelim.charCodeAt(0)` before the loop), declared column count, row limit,
and the probe flag. -/
structure SrcQP where
  csv : JStr
  rowDelim : JStr
  colDelim : Char
  numCols : Nat
  limit : Option Nat
  probe : Bool
deriving DecidableEq, Repr

/-- The loop bound `endPos = csvStr.length - 1`. -/
def SrcQP.endPos (P : SrcQP) : Int := (P.csv.length : Int) - 1

/-- `rowDelimChar = rowDelim.charCodeAt(0)` (NaN when the delimiter is
empty). -/
def SrcQP.rdChar (P : SrcQP) : Option Char := P.rowDelim.head?

/-- State of the quoted-path tokenizer loop: the field state (`inCol` 0 =
unstarted, 1 = unquoted, 2 = quoted), the scan position (an `Int`, since the
source assigns `indexOf`'s `-1` to it on an unterminated quote), the field
accumulator `v`, the row buffer and column index, the chunk under
construction, and the chunks already passed to the callback. -/
structure QCfg where
  inCol : Nat
  pos : Int
  v : JStr
  row : Row
  colIdx : Nat
  rows : List Row
  chunks : List (List Row)
deriving DecidableEq, Repr

/-- Outcome of one iteration of a tokenizer loop: continue in a new state,
return from `parse` (row limit hit), or throw. -/
inductive QStep (σ ω : Type) where
  | next : σ → QStep σ ω
  | ret : ω → QStep σ ω
  | err : QStep σ ω
deriving DecidableEq, Repr

/-- The PUSH MACRO of src/uDSV.js (lines 136–160 and 187–211): commit the
field at `colIdx`; on a row delimiter also push the row, return when the row
limit is hit, flush a full chunk, reset the row buffer, and skip the rest of
a multi-character row delimiter. -/
def Src.pushMacro (P : SrcQP) (cfg : QCfg) (c : Option Char) :
    QStep QCfg (List (List Row)) :=
  let row1 := jsArrSet cfg.row cfg.colIdx cfg.v
  let cfg1 := { cfg with
                row := row1
                colIdx := cfg.colIdx + 1
                pos := cfg.pos + 1
                v := []
                inCol := 0 }
  if jsEqC c P.rdChar then
    let rows1 := cfg1.rows ++ [row1]
    if P.limit = some rows1.length then QStep.ret (cfg1.chunks ++ [rows1])
    else
      let flush := rows1.length = CHUNK_SIZE
      QStep.next { cfg1 with
                   rows := if flush then [] else rows1
                   chunks := if flush then cfg1.chunks ++ [rows1] else cfg1.chunks
                   row := List.replicate P.numCols none
                   colIdx := 0
                   pos := cfg1.pos + (P.rowDelim.length : Int) - 1 }
  else QStep.next cfg1

/-- The quoted-field body (`inCol === 2`, src lines 168–184): a doubled
quote appends one literal quote, a single quote closes the field, and
otherwise the scan jumps to the next quote via `indexOf`/`slice` —
faithfully including the `-1` results when no quote remains. -/
def Src.quotedBody (P : SrcQP) (cfg : QCfg) (c : Option Char) :
    QStep QCfg (List (List Row)) :=
  if jsEqC c (some quoteChar) then
    if jsEqC (jsCharCodeAt P.csv (cfg.pos + 1)) (some quoteChar) then
      QStep.next { cfg with v := cfg.v ++ [quoteChar], pos := cfg.pos + 2 }
    else
      QStep.next { cfg with inCol := 0, pos := cfg.pos + 1 }
  else
    let pos2 := jsIndexOf P.csv [quoteChar] cfg.pos
    QStep.next { cfg with v := cfg.v ++ jsSlice P.csv cfg.pos pos2, pos := pos2 }

/-- The maximal run matched by the sticky probe pattern
`[^{colDelim}{rowDelim}]+` at a position (negative positions are clamped to
0, as `ToLength` does for `lastIndex`). -/
def probeRun (csv : JStr) (pos : Int) (excluded : List Char) : JStr :=
  (csv.drop pos.toNat).takeWhile (fun c => !(excluded.contains c))

/-- The unquoted-field body (`inCol === 1`, src lines 185–238): commit on a
delimiter; otherwise extend the field by a forward scan — the probe pattern
in probe mode (throwing when it matches nothing), else `indexOf` of the next
column delimiter (or of the row delimiter, falling back to end of input, in
the last column). -/
def Src.unquotedBody (P : SrcQP) (cfg : QCfg) (c : Option Char) :
    QStep QCfg (List (List Row)) :=
  if jsEqC c (some P.colDelim) || jsEqC c P.rdChar then
    Src.pushMacro P cfg c
  else if P.probe then
    let m := probeRun P.csv cfg.pos (P.colDelim :: P.rowDelim)
    if m.isEmpty then QStep.err
    else QStep.next { cfg with v := cfg.v ++ m, pos := cfg.pos + m.length }
  else
    let pos2 :=
      if (cfg.colIdx : Int) = (P.numCols : Int) - 1 then
        let p := jsIndexOf P.csv P.rowDelim cfg.pos
        if p = -1 then (P.csv.length : Int) else p
      else jsIndexOf P.csv [P.colDelim] cfg.pos
    QStep.next { cfg with v := cfg.v ++ jsSlice P.csv cfg.pos pos2, pos := pos2 }

/-- One iteration of the quoted-path `while` loop of src/uDSV.js: the
`inCol === 0` dispatch (open a quote and fall through to the quoted body,
commit an empty field, or start an unquoted field and fall through), then
the quoted/unquoted bodies. -/
def Src.stepQ (P : SrcQP) (cfg : QCfg) : QStep QCfg (List (List Row)) :=
  let c := jsCharCodeAt P.csv cfg.pos
  if cfg.inCol = 0 then
    if jsEqC c (some quoteChar) then
      Src.quotedBody P { cfg with inCol := 2, pos := cfg.pos + 1 }
        (jsCharCodeAt P.csv (cfg.pos + 1))
    else if jsEqC c (some P.colDelim) || jsEqC c P.rdChar then
      Src.pushMacro P cfg c
    else
      Src.unquotedBody P { cfg with inCol := 1 } c
  else if cfg.inCol = 2 then
    Src.quotedBody P cfg c
  else if cfg.inCol = 1 then
    Src.unquotedBody P cfg c
  else QStep.next cfg

/-- The quoted-path loop of src/uDSV.js, driven by fuel: while
`pos <= endPos` take a step; on exit commit the trailing field and row and
invoke the callback one final time (unconditionally).  `none` is fuel
exhaustion; `Except.error` a thrown TypeError. -/
def Src.runQ (P : SrcQP) : Nat → QCfg → Option (Except Unit (List (List Row)))
  | 0, _ => none
  | f + 1, cfg =>
    if cfg.pos ≤ P.endPos then
      match Src.stepQ P cfg with
      | QStep.next cfg1 => Src.runQ P f cfg1
      | QStep.ret out => some (Except.ok out)
      | QStep.err => some (Except.error ())
    else
      some (Except.ok (cfg.chunks ++ [cfg.rows ++ [jsArrSet cfg.row cfg.colIdx cfg.v]]))

/-- The initial loop state. -/
def initQCfg (numCols : Nat) : QCfg :=
  { inCol := 0, pos := 0, v := [], row := List.replicate numCols none,
    colIdx := 0, rows := [], chunks := [] }

/-- `parse(csvStr, schema, cb, limit, _maxCols)` of src/uDSV.js.  The chunk
callback is modelled by returning the list of chunks passed to it, with the
quote-free fast path's dense rows injected into the hole-carrying `Row`
type.  `none` is fuel exhaustion; `Except.error` is the TypeError thrown
when the quoted path dereferences an undefined column delimiter. -/
def Src.parse (csv : JStr) (schema : USchema) (limit : Option Nat)
    (maxCols : Option Nat) (fuel : Nat) : Option (Except Unit (List (List Row))) :=
  let numCols := match maxCols with
    | some m => if m = 0 then schema.cols.names.length else m
    | none => schema.cols.names.length
  if schema.quote.isEmpty then
    (Src.parseNoQuote csv schema.rows.delim schema.cols.delim limit fuel 0 [] []).map
      (fun chunks => Except.ok (chunks.map (fun ch => ch.map (fun r => r.map some))))
  else
    match schema.cols.delim with
    | none => some (Except.error ())
    | some d =>
      let P : SrcQP := { csv := csv
                         rowDelim := schema.rows.delim
                         colDelim := d
                         numCols := numCols
                         limit := limit
                         probe := maxCols.isSome && limit.isSome }
      Src.runQ P fuel (initQCfg numCols)

/-! ## The sniffer and schema prober, src/uDSV.js -/

/-- The leading-line match `/(.*)(\r?\n?)/`: the header text before the
first CR or LF, and the line terminator that follows (empty, LF, CR, or
CRLF). -/
def firstRowMatch (csv : JStr) : JStr × JStr :=
  let fst := csv.takeWhile (fun c => !(c == '\n' || c == '\r'))
  match csv.drop fst.length with
  | '\r' :: '\n' :: _ => (fst, ['\r', '\n'])
  | '\r' :: _ => (fst, ['\r'])
  | '\n' :: _ => (fst, ['\n'])
  | _ => (fst, [])

/-- One sampled row of the type-probe loop: for each slot that is set, mark
its column numeric when the unary-plus conversion of the value is not NaN
(`types[colIdx] = 'n'`). -/
def probeRowTypes (ts : List (Option Char)) (r : Row) : List (Option Char) :=
  r.enum.foldl (fun ts p => match p.2 with
    | none => ts
    | some v => if jsNumberNotNaN v then jsArrSetC ts p.1 'n' else ts) ts

/-- The type-probe loop of `schema` over all sampled data rows. -/
def probeTypes (ts : List (Option Char)) (rows : List Row) : List (Option Char) :=
  rows.foldl probeRowTypes ts

/-- Tail of `schema` after the probe parse: `firstRows.shift()` supplies the
header (`Object.keys` of the first row — throwing on an empty sample), the
remaining rows are probed for types, and the finished schema is returned. -/
def schemaFinish (quote : JStr) (colDelim : Option Char) (rowDelim : JStr)
    (firstRows : List Row) : Except Unit USchema :=
  match firstRows with
  | [] => Except.error ()
  | hdr :: rest =>
    let header := jsObjectKeys hdr
    Except.ok { quote := quote
                cols := { delim := colDelim, names := header,
                          types := probeTypes (List.replicate header.length (some 's')) rest }
                rows := { delim := rowDelim } }

/-- `schema(csvStr, limit)` of src/uDSV.js: match the first line, pick the
first candidate delimiter occurring in it (possibly none), enable quoting if
a quote appears anywhere, probe-parse up to `limit` rows, take the header
row's `Object.keys` as column names, and probe the remaining rows for
types.  `Except.error` covers the TypeErrors the source can throw
(`Object.keys(undefined)` on an empty sample, or the quoted path
dereferencing an undefined delimiter). -/
def Src.schema (csv : JStr) (limit : Nat) (fuel : Nat) :
    Option (Except Unit USchema) :=
  let fr := firstRowMatch csv
  let firstRowStr := fr.1
  let rowDelim := fr.2
  let colDelim := COL_DELIMS.find? (fun d => firstRowStr.contains d)
  let hasQuotes := csv.contains '"'
  let sch : USchema := { quote := if hasQuotes then ['"'] else []
                         cols := { delim := colDelim, names := [], types := [] }
                         rows := { delim := rowDelim } }
  let maxCols := (jsSplitOpt firstRowStr colDelim).length + 1
  match Src.parse csv sch (some limit) (some maxCols) fuel with
  | none => none
  | some (Except.error e) => some (Except.error e)
  | some (Except.ok chunks) =>
    some (schemaFinish sch.quote colDelim rowDelim chunks.flatten)

/-! ## The quoted state-machine path, dist/uDSV.cjs.js -/

/-- Static parameters of the quoted-path loop of the built parse. -/
structure DistQP where
  csv : JStr
  rowDelim : JStr
  colDelim : Char
  numCols : Nat
  chunkSize : Nat
  chunkLimit : Option Nat
  probe : Bool
deriving DecidableEq, Repr

/-- The loop bound `endPos = csvStr.length - 1`. -/
def DistQP.endPos (P : DistQP) : Int := (P.csv.length : Int) - 1

/-- `rowDelimChar = rowDelim.charCodeAt(0)`. -/
def DistQP.rdChar (P : DistQP) : Option Char := P.rowDelim.head?

/-- State of the built parse's quoted-path loop; like `QCfg` plus the chunk
counter, with chunks recorded together with the index passed to `cb`. -/
structure DCfg where
  inCol : Nat
  pos : Int
  v : JStr
  row : Row
  colIdx : Nat
  rows : List Row
  numChunks : Nat
  chunks : List (List Row × Nat)
deriving DecidableEq, Repr

/-- The PUSH MACRO of dist/uDSV.cjs.js (lines 223–245 and 281–303): commit
the field; on a row delimiter push the row, flush a full chunk with its
index, and return right after the flush when the chunk limit is reached. -/
def Dist.pushMacro (P : DistQP) (cfg : DCfg) (c : Option Char) :
    QStep DCfg (List (List Row × Nat)) :=
  let row1 := jsArrSet cfg.row cfg.colIdx cfg.v
  let cfg1 := { cfg with
                row := row1
                colIdx := cfg.colIdx + 1
                pos := cfg.pos + 1
                v := []
                inCol := 0 }
  if jsEqC c P.rdChar then
    let rows1 := cfg1.rows ++ [row1]
    if rows1.length = P.chunkSize then
      let chunks1 := cfg1.chunks ++ [(rows1, cfg1.numChunks)]
      let n1 := cfg1.numChunks + 1
      if P.chunkLimit = some n1 then QStep.ret chunks1
      else QStep.next { cfg1 with
                        rows := []
                        numChunks := n1
                        chunks := chunks1
                        row := List.replicate P.numCols none
                        colIdx := 0
                        pos := cfg1.pos + (P.rowDelim.length : Int) - 1 }
    else QStep.next { cfg1 with
                      rows := rows1
                      row := List.replicate P.numCols none
                      colIdx := 0
                      pos := cfg1.pos + (P.rowDelim.length : Int) - 1 }
  else QStep.next cfg1

/-- The inner `while (1)` of the built quoted-field body (dist lines
253–277): consume doubled quotes and quote-free runs until a closing quote,
returning the position and accumulator at the break (where `inCol` becomes
0).  Fuel guards the loop, which the source can fail to leave on an
unterminated quote. -/
def Dist.quotScan (csv : JStr) : Nat → Int → JStr → Option Char →
    Option (Int × JStr)
  | 0, _, _, _ => none
  | f + 1, pos, v, c =>
    if jsEqC c (some quoteChar) then
      if jsEqC (jsCharCodeAt csv (pos + 1)) (some quoteChar) then
        Dist.quotScan csv f (pos + 2) (v ++ [quoteChar]) (jsCharCodeAt csv (pos + 2))
      else some (pos + 1, v)
    else
      let pos2 := jsIndexOf csv [quoteChar] pos
      Dist.quotScan csv f pos2 (v ++ jsSlice csv pos pos2) (some quoteChar)

/-- The unquoted-field body of the built parse (dist lines 279–330),
identical in structure to the source version. -/
def Dist.unquotedBody (P : DistQP) (cfg : DCfg) (c : Option Char) :
    QStep DCfg (List (List Row × Nat)) :=
  if jsEqC c (some P.colDelim) || jsEqC c P.rdChar then
    Dist.pushMacro P cfg c
  else if P.probe then
    let m := probeRun P.csv cfg.pos (P.colDelim :: P.rowDelim)
    if m.isEmpty then QStep.err
    else QStep.next { cfg with v := cfg.v ++ m, pos := cfg.pos + m.length }
  else
    let pos2 :=
      if (cfg.colIdx : Int) = (P.numCols : Int) - 1 then
        let p := jsIndexOf P.csv P.rowDelim cfg.pos
        if p = -1 then (P.csv.length : Int) else p
      else jsIndexOf P.csv [P.colDelim] cfg.pos
    QStep.next { cfg with v := cfg.v ++ jsSlice P.csv cfg.pos pos2, pos := pos2 }

/-- One iteration of the built parse's quoted-path `while` loop.  The quoted
body is the inner loop `Dist.quotScan` (it always leaves `inCol = 0` when it
breaks); `none` propagates its fuel exhaustion. -/
def Dist.stepQ (P : DistQP) (fuel : Nat) (cfg : DCfg) :
    Option (QStep DCfg (List (List Row × Nat))) :=
  let c := jsCharCodeAt P.csv cfg.pos
  if cfg.inCol = 0 then
    if jsEqC c (some quoteChar) then
      match Dist.quotScan P.csv fuel (cfg.pos + 1) cfg.v
        (jsCharCodeAt P.csv (cfg.pos + 1)) with
      | none => none
      | some (p1, v1) => some (QStep.next { cfg with inCol := 0, pos := p1, v := v1 })
    else if jsEqC c (some P.colDelim) || jsEqC c P.rdChar then
      some (Dist.pushMacro P cfg c)
    else some (Dist.unquotedBody P { cfg with inCol := 1 } c)
  else if cfg.inCol = 2 then
    match Dist.quotScan P.csv fuel cfg.pos cfg.v c with
    | none => none
    | some (p1, v1) => some (QStep.next { cfg with inCol := 0, pos := p1, v := v1 })
  else if cfg.inCol = 1 then some (Dist.unquotedBody P cfg c)
  else some (QStep.next cfg)

/-- The quoted-path loop of the built parse: while `pos <= endPos` take a
step; on exit commit the trailing field and row and invoke the callback one
final time with the next chunk index. -/
def Dist.runQ (P : DistQP) : Nat → DCfg → Option (Except Unit (List (List Row × Nat)))
  | 0, _ => none
  | f + 1, cfg =>
    if cfg.pos ≤ P.endPos then
      match Dist.stepQ P (f + 1) cfg with
      | none => none
      | some (QStep.next cfg1) => Dist.runQ P f cfg1
      | some (QStep.ret out) => some (Except.ok out)
      | some QStep.err => some (Except.error ())
    else
      some (Except.ok (cfg.chunks ++
        [(cfg.rows ++ [jsArrSet cfg.row cfg.colIdx cfg.v], cfg.numChunks)]))

/-- The schema object of dist/uDSV.cjs.js: `quote` is `null` or `'"'`. -/
structure DSchema where
  quote : Option Char
  cols : SchemaCols
  rows : SchemaRows
deriving DecidableEq, Repr

/-- `parse(csvStr, schema, cb, chunkSize, chunkLimit, _maxCols)` of
dist/uDSV.cjs.js.  The result is the list of `(chunk, chunkIndex)` pairs
passed to `cb`, in call order. -/
def Dist.parse (csv : JStr) (schema : DSchema) (chunkSize : Nat)
    (chunkLimit : Option Nat) (maxCols : Option Nat) (fuel : Nat) :
    Option (Except Unit (List (List Row × Nat))) :=
  let numCols := match maxCols with
    | some m => if m = 0 then schema.cols.names.length else m
    | none => schema.cols.names.length
  match schema.quote with
  | none =>
    (Dist.parseNoQuote csv schema.rows.delim schema.cols.delim chunkSize
        chunkLimit fuel 0 [] 0 []).map
      (fun chunks => Except.ok (chunks.map
        (fun ch => (ch.1.map (fun r => r.map some), ch.2))))
  | some _ =>
    match schema.cols.delim with
    | none => some (Except.error ())
    | some d =>
      let P : DistQP := { csv := csv
                          rowDelim := schema.rows.delim
                          colDelim := d
                          numCols := numCols
                          chunkSize := chunkSize
                          chunkLimit := chunkLimit
                          probe := maxCols.isSome && chunkLimit.isSome }
      Dist.runQ P fuel { inCol := 0, pos := 0, v := [], row := List.replicate numCols none,
                         colIdx := 0, rows := [], numChunks := 0, chunks := [] }

/-! ## The coercion compiler, dist/uDSV.cjs.js lines 23–89

`genToTypedFn` generates JavaScript source text and compiles it with
`new Function`; what is embedded here is the semantics of the compiled
routine (positional mode): a per-column classification from the sample rows,
then a uniform per-row conversion. -/

/-- The five per-column conversions the compiler can emit. -/
inductive ColKind where
  | kdate | knum | kbool | kjson | kstr
deriving DecidableEq, Repr

/-- A JavaScript value produced by the compiled conversion.  `num m e`
denotes the number `m · 10^e`; `date` and `json` carry the source text
whose `new Date`/`JSON.parse` value they denote. -/
inductive JsValue where
  | undef
  | jnull
  | str : JStr → JsValue
  | num : Int → Int → JsValue
  | nan
  | inf : Bool → JsValue
  | bool : Bool → JsValue
  | date : JStr → JsValue
  | json : JStr → JsValue
deriving DecidableEq, Repr

/-- Cell read `r[ci]`: holes and out-of-range reads are `undefined`. -/
def jsGet (r : Row) (i : Nat) : Option JStr := r.getD i none

/-- Column classification of `genToTypedFn`: the first sample row whose cell
at `ci` is neither null/undefined nor the empty string decides the
conversion, tested in the source's order — ISO-8601 date, parseFloat
number, boolean literal, JSON (only when the value starts with `[` or `{`
and parses), else string (no conversion). -/
def classifyCol (sample : List Row) (ci : Nat) : ColKind :=
  match sample.find? (fun r => match jsGet r ci with
    | some v => !v.isEmpty
    | none => false) with
  | none => ColKind.kstr
  | some r =>
    match jsGet r ci with
    | none => ColKind.kstr
    | some v =>
      if iso8601Test v then ColKind.kdate
      else if jsParseFloat v ≠ PFloat.nan then ColKind.knum
      else if boolLitTest v then ColKind.kbool
      else if (v.head? = some '[' ∨ v.head? = some '{') ∧ jsonOk v then ColKind.kjson
      else ColKind.kstr

/-- The compiled per-cell conversion for a column: an empty or missing cell
becomes `undefined`, the literal text `null` becomes null, otherwise the
classified conversion applies. -/
def convertCell (k : ColKind) (cell : Option JStr) : JsValue :=
  match cell with
  | none => JsValue.undef
  | some v =>
    if v.isEmpty then JsValue.undef
    else if v = sToL "null" then JsValue.jnull
    else match k with
      | ColKind.kstr => JsValue.str v
      | ColKind.knum =>
        match jsParseFloat v with
        | PFloat.val m e => JsValue.num m e
        | PFloat.inf b => JsValue.inf b
        | PFloat.nan => JsValue.nan
      | ColKind.kbool => JsValue.bool (v.map Char.toLower = sToL "true")
      | ColKind.kdate => JsValue.date v
      | ColKind.kjson => JsValue.json v

/-- Semantics of the positional conversion routine compiled by
`genToTypedFn(cols, rows)`: each input row's first `cols.length` slots are
converted with the per-column classification derived from the sample. -/
def genToTypedFn (cols : List JStr) (sample : List Row) (rows : List Row) :
    List (List JsValue) :=
  let kinds := (List.range cols.length).map (classifyCol sample)
  rows.map (fun r => kinds.enum.map (fun p => convertCell p.2 (jsGet r p.1)))

/-! ## Input encodings and reference outputs used to state the properties -/

/-- A text of `segs.length` rows, each terminated by the row delimiter. -/
def encodeSegs (rd : JStr) (segs : List JStr) : JStr :=
  (segs.map (fun s => s ++ rd)).flatten

/-- Rejoin parsed rows: fields joined with the column delimiter, each row
terminated by the row delimiter. -/
def rejoinRows (cd : Char) (rd : JStr) (rows : List (List JStr)) : JStr :=
  (rows.map (fun r => jsJoin cd r ++ rd)).flatten

/-- Reference model of the source's quote-free loop over a list of row
segments: push each split segment, return at the row limit, flush full
chunks. -/
def chunkLoop (cd : Option Char) (limit : Option Nat) (chunkSize : Nat) :
    List JStr → List (List JStr) → List (List (List JStr)) → List (List (List JStr))
  | [], rows, chunks => if rows.isEmpty then chunks else chunks ++ [rows]
  | seg :: rest, rows, chunks =>
    let rows1 := rows ++ [jsSplitOpt seg cd]
    if limit = some rows1.length then chunks ++ [rows1]
    else if rows1.length = chunkSize then chunkLoop cd limit chunkSize rest [] (chunks ++ [rows1])
    else chunkLoop cd limit chunkSize rest rows1 chunks

/-- Reference model of the built quote-free loop with no chunk limit:
chunks of `chunkSize` rows paired with consecutive indices. -/
def distChunks (cd : Option Char) (chunkSize : Nat) :
    List JStr → List (List JStr) → Nat → List (List (List JStr) × Nat)
  | [], rows, n => if rows.isEmpty then [] else [(rows, n)]
  | seg :: rest, rows, n =>
    let rows1 := rows ++ [jsSplitOpt seg cd]
    if rows1.length = chunkSize then (rows1, n) :: distChunks cd chunkSize rest [] (n + 1)
    else distChunks cd chunkSize rest rows1 n

/-- Double every quote character — the escaping that a quoted field
undoes. -/
def dqw : JStr → JStr
  | [] => []
  | c :: t => if c = quoteChar then quoteChar :: quoteChar :: dqw t else c :: dqw t

/-- A complete quoted field: opening quote, doubled content, closing
quote. -/
def encodeQuoted (w : JStr) : JStr := quoteChar :: (dqw w ++ [quoteChar])

/-- Fill consecutive row slots starting at `j` with the given fields. -/
def fillRow (row : Row) (j : Nat) : List JStr → Row
  | [] => row
  | f :: fs => fillRow (jsArrSet row j f) (j + 1) fs

/-- Push a completed row into the running chunk, flushing at
`CHUNK_SIZE`. -/
def chunkPush (chunks : List (List Row)) (rows : List Row) (r : Row) :
    List (List Row) × List Row :=
  let rows1 := rows ++ [r]
  if rows1.length = CHUNK_SIZE then (chunks ++ [rows1], []) else (chunks, rows1)

/-- Fold `chunkPush` over a list of completed rows. -/
def pushAll (chunks : List (List Row)) (rows : List Row) :
    List Row → List (List Row) × List Row
  | [] => (chunks, rows)
  | r :: rs => pushAll (chunkPush chunks rows r).1 (chunkPush chunks rows r).2 rs

/-- The hole-free row buffer a full list of fields fills. -/
def rowOf (numCols : Nat) (fields : List JStr) : Row :=
  fillRow (List.replicate numCols none) 0 fields

/-- A row of fields joined by the column delimiter. -/
def joinRow (cd : Char) (fields : List JStr) : JStr := jsJoin cd fields

/-- The trailing row buffer the quoted path emits after a final row
delimiter: the empty string at slot 0, all other slots unset. -/
def phantomRow (numCols : Nat) : Row := jsArrSet (List.replicate numCols none) 0 []

/-- Reachability in the source tokenizer loop: `c'` arises from `c` after
finitely many iterations, uniformly in the remaining fuel. -/
def Src.Steps (P : SrcQP) (c c' : QCfg) : Prop :=
  ∃ k, ∀ f, Src.runQ P (f + k) c = Src.runQ P f c'

/-- The final flush of the quoted-path loop: commit the trailing field and
row and pass the last chunk to the callback. -/
def finishQ (cfg : QCfg) : List (List Row) :=
  cfg.chunks ++ [cfg.rows ++ [jsArrSet cfg.row cfg.colIdx cfg.v]]

/-- Rows joined by the row delimiter with no trailing terminator — the
claim's literal reading of "rejoining the rows with the row delimiter". -/
def interRows (cd : Char) (rd : JStr) : List (List JStr) → JStr
  | [] => []
  | [r] => jsJoin cd r
  | r :: s :: t => jsJoin cd r ++ rd ++ interRows cd rd (s :: t)

/-- Decidable equality for thrown-or-returned results, used only to settle
concrete runs by evaluation. -/
instance {α : Type} [DecidableEq α] : DecidableEq (Except Unit α) := fun a b =>
  match a, b with
  | Except.ok x, Except.ok y =>
    if h : x = y then Decidable.isTrue (by rw [h]) else Decidable.isFalse (by
      intro hc
      cases hc
      exact h rfl)
  | Except.error _, Except.error _ => Decidable.isTrue (by rfl)
  | Except.ok _, Except.error _ => Decidable.isFalse (by intro hc; cases hc)
  | Except.error _, Except.ok _ => Decidable.isFalse (by intro hc; cases hc)

/-- Registered outright because the nested instance search otherwise fails
on these deeply nested types. -/
instance : DecidableEq (List Row × Nat) := inferInstance

instance : DecidableEq (List (List Row)) := inferInstance

/-- The quoted-path machine parameters for a single-column schema with
comma column delimiter and LF row delimiter, no row limit, probe off. -/
def qp1 (csv : JStr) : SrcQP :=
  { csv := csv
    rowDelim := ['\n']
    colDelim := ','
    numCols := 1
    limit := none
    probe := false }

/-- The loop state right after the opening quote of the first field has been
consumed. -/
def qcfg1 : QCfg := { initQCfg 1 with inCol := 2, pos := 1 }

/-- The quoted-path machine parameters for an input that ends with a
one-character row delimiter `rd`. -/
def qpC10 (ys : JStr) (rd cd : Char) (n : Nat) : SrcQP :=
  { csv := ys ++ [rd]
    rowDelim := [rd]
    colDelim := cd
    numCols := n
    limit := none
    probe := false }

/-- Loop invariant for the trailing phantom row: whenever the scan position
has passed the end of the input, the field accumulator, column index and row
buffer are in their just-reset state. -/
def C10Inv (P : SrcQP) (cfg : QCfg) : Prop :=
  P.endPos < cfg.pos →
    cfg.v = [] ∧ cfg.colIdx = 0 ∧ cfg.row = List.replicate P.numCols none

/-! # Theorems

First, facts about the embedded ECMAScript primitives. -/

theorem findSubFrom_found (hay needle : JStr) (start : Nat)
    (h1 : start ≤ hay.length) (h2 : needle.isPrefixOf (hay.drop start)) :
    findSubFrom hay needle start = some start := by
  have hf : hay.length + 1 - start = (hay.length - start) + 1 := by omega
  rw [findSubFrom, hf, findSubFromAux]
  simp [h1, h2]

theorem findSubFrom_skip (hay needle : JStr) (start : Nat)
    (h1 : start < hay.length) (h2 : ¬ needle.isPrefixOf (hay.drop start)) :
    findSubFrom hay needle start = findSubFrom hay needle (start + 1) := by
  have hf : hay.length + 1 - start = (hay.length + 1 - (start + 1)) + 1 := by omega
  rw [findSubFrom, hf, findSubFromAux]
  rw [if_pos (Nat.le_of_lt h1), if_neg h2, if_neg (Nat.ne_of_lt h1)]
  rfl

theorem findSubFrom_stop (hay needle : JStr) (start : Nat)
    (h1 : hay.length ≤ start) (h2 : ¬ needle.isPrefixOf (hay.drop start)) :
    findSubFrom hay needle start = none := by
  rw [findSubFrom]
  by_cases h : start ≤ hay.length
  · have he : start = hay.length := Nat.le_antisymm h h1
    have hf : hay.length + 1 - start = 1 := by omega
    rw [hf, findSubFromAux]
    simp [h, h2, he]
    intro hne
    exact h2 (by simp [hne])
  · have hf : hay.length + 1 - start = 0 := by omega
    rw [hf, findSubFromAux]

theorem findSubFrom_gt (hay needle : JStr) (start : Nat)
    (h : hay.length < start) : findSubFrom hay needle start = none := by
  have hf : hay.length + 1 - start = 0 := by omega
  rw [findSubFrom, hf, findSubFromAux]

theorem findSubFrom_append_right (pre seg tl rest : JStr) (hd : Char) (h : hd ∉ seg) :
    findSubFrom (pre ++ (seg ++ ((hd :: tl) ++ rest))) (hd :: tl) pre.length
      = some (pre.length + seg.length) := by
  induction seg generalizing pre with
  | nil =>
    simp only [List.nil_append, List.length_nil, Nat.add_zero]
    apply findSubFrom_found
    · simp
    · rw [List.drop_left]
      exact List.isPrefixOf_iff_prefix.mpr (List.prefix_append _ _)
  | cons a st ih =>
    have ha : hd ≠ a := fun he => h (by simp [he])
    have hst : hd ∉ st := fun he => h (by simp [he])
    have hskip : findSubFrom (pre ++ ((a :: st) ++ ((hd :: tl) ++ rest))) (hd :: tl)
        pre.length = findSubFrom (pre ++ ((a :: st) ++ ((hd :: tl) ++ rest))) (hd :: tl)
        (pre.length + 1) := by
      apply findSubFrom_skip
      · simp only [List.length_append, List.length_cons]
        omega
      · rw [List.drop_left]
        intro hp
        have := List.isPrefixOf_iff_prefix.mp hp
        exact ha (List.cons_prefix_cons.mp this).1
    have hre : pre ++ ((a :: st) ++ ((hd :: tl) ++ rest))
        = (pre ++ [a]) ++ (st ++ ((hd :: tl) ++ rest)) := by simp
    have hlen : pre.length + 1 = (pre ++ [a]).length := by simp
    rw [hskip, hre, hlen, ih (pre ++ [a]) hst]
    simp
    omega

theorem findSubFrom_none_after (pre tail tl : JStr) (hd : Char) (h : hd ∉ tail) :
    findSubFrom (pre ++ tail) (hd :: tl) pre.length = none := by
  induction tail generalizing pre with
  | nil =>
    apply findSubFrom_stop
    · simp
    · rw [List.drop_left]
      intro hp
      have := List.isPrefixOf_iff_prefix.mp hp
      simp at this
  | cons a st ih =>
    have ha : hd ≠ a := fun he => h (by simp [he])
    have hst : hd ∉ st := fun he => h (by simp [he])
    have hskip : findSubFrom (pre ++ (a :: st)) (hd :: tl) pre.length
        = findSubFrom (pre ++ (a :: st)) (hd :: tl) (pre.length + 1) := by
      apply findSubFrom_skip
      · simp
      · rw [List.drop_left]
        intro hp
        have := List.isPrefixOf_iff_prefix.mp hp
        exact ha (List.cons_prefix_cons.mp this).1
    have hre : pre ++ (a :: st) = (pre ++ [a]) ++ st := by simp
    have hlen : pre.length + 1 = (pre ++ [a]).length := by simp
    rw [hskip, hre, hlen, ih (pre ++ [a]) hst]

theorem findSubFrom_bound (hay needle : JStr) :
    ∀ start n, findSubFrom hay needle start = some n →
      start ≤ n ∧ n + needle.length ≤ hay.length ∧ needle.isPrefixOf (hay.drop n) := by
  have main : ∀ m start n, hay.length + 1 - start ≤ m →
      findSubFrom hay needle start = some n →
      start ≤ n ∧ n + needle.length ≤ hay.length ∧ needle.isPrefixOf (hay.drop n) := by
    intro m
    induction m with
    | zero =>
      intro start n hm hf
      rw [findSubFrom_gt hay needle start (by omega)] at hf
      cases hf
    | succ m ih =>
      intro start n hm hf
      by_cases h2 : needle.isPrefixOf (hay.drop start)
      · by_cases h1 : start ≤ hay.length
        · rw [findSubFrom_found hay needle start h1 h2] at hf
          cases hf
          refine ⟨Nat.le_refl _, ?_, h2⟩
          have hl := (List.isPrefixOf_iff_prefix.mp h2).length_le
          simp [List.length_drop] at hl
          omega
        · rw [findSubFrom_gt hay needle start (by omega)] at hf
          cases hf
      · by_cases h1 : start < hay.length
        · rw [findSubFrom_skip hay needle start h1 h2] at hf
          have := ih (start + 1) n (by omega) hf
          exact ⟨by omega, this.2.1, this.2.2⟩
        · rcases Nat.lt_or_ge hay.length start with hgt | hge
          · rw [findSubFrom_gt hay needle start hgt] at hf
            cases hf
          · rw [findSubFrom_stop hay needle start (by omega) h2] at hf
            cases hf
  intro start n hf
  exact main (hay.length + 1 - start) start n (Nat.le_refl _) hf

theorem findSubFrom_isSome (hay needle : JStr) (j : Nat)
    (hj : needle.isPrefixOf (hay.drop j)) (hjl : j ≤ hay.length) :
    ∀ start, start ≤ j → ∃ n, findSubFrom hay needle start = some n := by
  have main : ∀ m start, j + 1 - start ≤ m → start ≤ j →
      ∃ n, findSubFrom hay needle start = some n := by
    intro m
    induction m with
    | zero => intro start hm hs; omega
    | succ m ih =>
      intro start hm hs
      by_cases h2 : needle.isPrefixOf (hay.drop start)
      · exact ⟨start, findSubFrom_found hay needle start (Nat.le_trans hs hjl) h2⟩
      · have hne : start ≠ j := fun he => h2 (he ▸ hj)
        have h3 : start < hay.length := by
          rcases Nat.lt_or_ge start hay.length with h | h
          · exact h
          · exfalso
            have : start = hay.length := by omega
            have : j = hay.length := by omega
            apply h2
            have hdrop : hay.drop j = [] := by
              rw [this]
              simp
            rw [hdrop] at hj
            have : needle = [] := by
              have := List.isPrefixOf_iff_prefix.mp hj
              simpa using this
            simp [this]
        rw [findSubFrom_skip hay needle start h3 h2]
        exact ih (start + 1) (by omega) (by omega)
  intro start hs
  exact main (j + 1 - start) start (Nat.le_refl _) hs

theorem jsSlice_nat (s : JStr) (a b : Nat) (ha : a ≤ s.length) (hb : b ≤ s.length) :
    jsSlice s (a : Int) (b : Int) = (s.drop a).take (b - a) := by
  unfold jsSlice
  have h1 : ¬ ((a : Int) < 0) := by omega
  have h2 : ¬ ((b : Int) < 0) := by omega
  have h3 : min (a : Int) (s.length : Int) = (a : Int) := by omega
  have h4 : min (b : Int) (s.length : Int) = (b : Int) := by omega
  simp only [h1, if_false, h2, h3, h4, Int.toNat_natCast]

theorem jsSlice_middle (pre seg rest : JStr) :
    jsSlice (pre ++ (seg ++ rest)) (pre.length : Int)
      ((pre.length + seg.length : Nat) : Int) = seg := by
  rw [jsSlice_nat]
  · rw [List.drop_left]
    have : pre.length + seg.length - pre.length = seg.length := by omega
    rw [this, List.take_left]
  · simp
  · simp only [List.length_append]
    omega

theorem jsCharCodeAt_append_cons (pre rest : JStr) (c : Char) :
    jsCharCodeAt (pre ++ c :: rest) (pre.length : Int) = some c := by
  unfold jsCharCodeAt
  have h : (0 : Int) ≤ (pre.length : Int) ∧
      (pre.length : Int) < (((pre ++ c :: rest).length : Nat) : Int) := by
    constructor
    · omega
    · simp only [List.length_append, List.length_cons]
      omega
  rw [dif_pos h]
  congr 1
  have ht : ((pre.length : Int)).toNat = pre.length := Int.toNat_natCast _
  simp only [List.get_eq_getElem, ht]
  rw [List.getElem_append_right (by omega)]
  simp

theorem jsCharCodeAt_neg (s : JStr) (i : Int) (h : i < 0) : jsCharCodeAt s i = none := by
  unfold jsCharCodeAt
  rw [dif_neg]
  omega

theorem jsCharCodeAt_ge (s : JStr) (i : Int) (h : (s.length : Int) ≤ i) :
    jsCharCodeAt s i = none := by
  unfold jsCharCodeAt
  rw [dif_neg]
  omega

/-! ## The quote-free fast path, characterized on row-terminated inputs -/

theorem Src.parseNoQuote_succ (csv rd : JStr) (cd : Option Char) (limit : Option Nat)
    (f pos : Nat) (rows : List (List JStr)) (chunks : List (List (List JStr))) :
    Src.parseNoQuote csv rd cd limit (f + 1) pos rows chunks =
      match findSubFrom csv rd pos with
      | none => some (if rows.isEmpty then chunks else chunks ++ [rows])
      | some idx =>
        let rows1 := rows ++ [jsSplitOpt (jsSlice csv pos idx) cd]
        let pos1 := idx + rd.length
        if limit = some rows1.length then some (chunks ++ [rows1])
        else if rows1.length = CHUNK_SIZE then
          Src.parseNoQuote csv rd cd limit f pos1 [] (chunks ++ [rows1])
        else Src.parseNoQuote csv rd cd limit f pos1 rows1 chunks := rfl

theorem Src.parseNoQuote_encode (hd : Char) (tl : JStr) (cd : Option Char)
    (limit : Option Nat) :
    ∀ (segs : List JStr) (pre tail : JStr) (rows : List (List JStr))
      (chunks : List (List (List JStr))) (fuel : Nat),
      (∀ s ∈ segs, hd ∉ s) → hd ∉ tail → segs.length + 1 ≤ fuel →
      Src.parseNoQuote (pre ++ (encodeSegs (hd :: tl) segs ++ tail)) (hd :: tl) cd limit
        fuel pre.length rows chunks
        = some (chunkLoop cd limit CHUNK_SIZE segs rows chunks) := by
  intro segs
  induction segs with
  | nil =>
    intro pre tail rows chunks fuel hsegs htail hfuel
    match fuel, hfuel with
    | f + 1, _ =>
      rw [Src.parseNoQuote_succ]
      have henc : encodeSegs (hd :: tl) [] = [] := rfl
      rw [henc, List.nil_append]
      rw [findSubFrom_none_after pre tail tl hd htail]
      rfl
  | cons seg rest ih =>
    intro pre tail rows chunks fuel hsegs htail hfuel
    match fuel, hfuel with
    | f + 1, hfl =>
      rw [Src.parseNoQuote_succ]
      have hcsv : pre ++ (encodeSegs (hd :: tl) (seg :: rest) ++ tail)
          = pre ++ (seg ++ ((hd :: tl) ++ (encodeSegs (hd :: tl) rest ++ tail))) := by
        simp [encodeSegs, List.append_assoc]
      rw [hcsv]
      rw [findSubFrom_append_right pre seg tl _ hd (hsegs seg (by simp))]
      simp only []
      have hslice : jsSlice (pre ++ (seg ++ ((hd :: tl) ++ (encodeSegs (hd :: tl) rest ++ tail))))
          ((pre.length : Nat) : Int) (((pre.length + seg.length : Nat)) : Int) = seg :=
        jsSlice_middle pre seg _
      rw [hslice]
      have hre : pre ++ (seg ++ ((hd :: tl) ++ (encodeSegs (hd :: tl) rest ++ tail)))
          = (pre ++ seg ++ (hd :: tl)) ++ (encodeSegs (hd :: tl) rest ++ tail) := by
        simp [List.append_assoc]
      have hlen : pre.length + seg.length + (hd :: tl).length
          = (pre ++ seg ++ (hd :: tl)).length := by
        simp
        omega
      have hrest : ∀ s ∈ rest, hd ∉ s := fun s hs => hsegs s (by simp [hs])
      by_cases hl : limit = some (rows ++ [jsSplitOpt seg cd]).length
      · rw [if_pos hl]
        rw [chunkLoop]
        rw [if_pos hl]
      · rw [if_neg hl]
        by_cases hc : (rows ++ [jsSplitOpt seg cd]).length = CHUNK_SIZE
        · rw [if_pos hc]
          rw [chunkLoop, if_neg hl, if_pos hc]
          rw [hre, hlen]
          exact ih (pre ++ seg ++ (hd :: tl)) tail [] (chunks ++ [rows ++ [jsSplitOpt seg cd]])
            f hrest htail (by simp at hfl; omega)
        · rw [if_neg hc]
          rw [chunkLoop, if_neg hl, if_neg hc]
          rw [hre, hlen]
          exact ih (pre ++ seg ++ (hd :: tl)) tail (rows ++ [jsSplitOpt seg cd]) chunks
            f hrest htail (by simp at hfl; omega)

theorem chunkLoop_nolimit_flatten (cd : Option Char) (C : Nat) :
    ∀ (segs : List JStr) rows chunks,
      (chunkLoop cd none C segs rows chunks).flatten
        = chunks.flatten ++ rows ++ segs.map (fun s => jsSplitOpt s cd) := by
  intro segs
  induction segs with
  | nil =>
    intro rows chunks
    rw [chunkLoop]
    by_cases h : rows.isEmpty
    · rw [if_pos h]
      simp [List.isEmpty_iff.mp h]
    · rw [if_neg h]
      simp
  | cons seg rest ih =>
    intro rows chunks
    rw [chunkLoop]
    rw [if_neg (by simp)]
    by_cases hc : (rows ++ [jsSplitOpt seg cd]).length = C
    · rw [if_pos hc, ih]
      simp
    · rw [if_neg hc, ih]
      simp

theorem chunkLoop_limit (cd : Option Char) (k : Nat) (hk1 : 1 ≤ k) (hkC : k ≤ CHUNK_SIZE) :
    ∀ (segs : List JStr) rows chunks, rows.length < k → k ≤ rows.length + segs.length →
      chunkLoop cd (some k) CHUNK_SIZE segs rows chunks
        = chunks ++ [rows ++ (segs.take (k - rows.length)).map (fun s => jsSplitOpt s cd)] := by
  intro segs
  induction segs with
  | nil =>
    intro rows chunks h1 h2
    simp at h2
    omega
  | cons seg rest ih =>
    intro rows chunks h1 h2
    rw [chunkLoop]
    by_cases hl : k = (rows ++ [jsSplitOpt seg cd]).length
    · rw [if_pos (by rw [hl])]
      have hone : k - rows.length = 1 := by
        simp at hl
        omega
      rw [hone]
      simp
    · rw [if_neg (fun hse => hl (Option.some_injective _ hse))]
      have hlt : (rows ++ [jsSplitOpt seg cd]).length < k := by
        simp at hl ⊢
        omega
      have hc : ¬ (rows ++ [jsSplitOpt seg cd]).length = CHUNK_SIZE := by
        simp at hlt ⊢
        omega
      rw [if_neg hc]
      rw [ih (rows ++ [jsSplitOpt seg cd]) chunks hlt (by simp at h2 ⊢; omega)]
      have htake : (seg :: rest).take (k - rows.length)
          = seg :: rest.take (k - (rows.length + 1)) := by
        have : k - rows.length = (k - (rows.length + 1)) + 1 := by omega
        rw [this]
        simp
      rw [htake]
      simp

theorem Dist.parseNoQuoteStep (csv rd : JStr) (cd : Option Char) (C : Nat)
    (chunkLimit : Option Nat) (f pos : Nat) (rows : List (List JStr)) (n : Nat)
    (chunks : List (List (List JStr) × Nat)) :
    Dist.parseNoQuote csv rd cd C chunkLimit (f + 1) pos rows n chunks =
      match findSubFrom csv rd pos with
      | none => some (if rows.isEmpty then chunks else chunks ++ [(rows, n)])
      | some idx =>
        let rows1 := rows ++ [jsSplitOpt (jsSlice csv pos idx) cd]
        let pos1 := idx + rd.length
        if rows1.length = C then
          let chunks1 := chunks ++ [(rows1, n)]
          if chunkLimit = some (n + 1) then some chunks1
          else Dist.parseNoQuote csv rd cd C chunkLimit f pos1 [] (n + 1) chunks1
        else Dist.parseNoQuote csv rd cd C chunkLimit f pos1 rows1 n chunks := rfl

theorem Dist.parseNoQuoteEncode (hd : Char) (tl : JStr) (cd : Option Char) (C : Nat) :
    ∀ (segs : List JStr) (pre tail : JStr) (rows : List (List JStr)) (n : Nat)
      (chunks : List (List (List JStr) × Nat)) (fuel : Nat),
      (∀ s ∈ segs, hd ∉ s) → hd ∉ tail → segs.length + 1 ≤ fuel →
      Dist.parseNoQuote (pre ++ (encodeSegs (hd :: tl) segs ++ tail)) (hd :: tl) cd C none
        fuel pre.length rows n chunks
        = some (chunks ++ distChunks cd C segs rows n) := by
  intro segs
  induction segs with
  | nil =>
    intro pre tail rows n chunks fuel hsegs htail hfuel
    match fuel, hfuel with
    | f + 1, _ =>
      rw [Dist.parseNoQuoteStep]
      have henc : encodeSegs (hd :: tl) [] = [] := rfl
      rw [henc, List.nil_append]
      rw [findSubFrom_none_after pre tail tl hd htail]
      rw [distChunks]
      by_cases h : rows.isEmpty
      · simp [h]
      · simp [h]
  | cons seg rest ih =>
    intro pre tail rows n chunks fuel hsegs htail hfuel
    match fuel, hfuel with
    | f + 1, hfl =>
      rw [Dist.parseNoQuoteStep]
      have hcsv : pre ++ (encodeSegs (hd :: tl) (seg :: rest) ++ tail)
          = pre ++ (seg ++ ((hd :: tl) ++ (encodeSegs (hd :: tl) rest ++ tail))) := by
        simp [encodeSegs, List.append_assoc]
      rw [hcsv]
      rw [findSubFrom_append_right pre seg tl _ hd (hsegs seg (by simp))]
      simp only []
      have hslice : jsSlice (pre ++ (seg ++ ((hd :: tl) ++ (encodeSegs (hd :: tl) rest ++ tail))))
          ((pre.length : Nat) : Int) (((pre.length + seg.length : Nat)) : Int) = seg :=
        jsSlice_middle pre seg _
      rw [hslice]
      have hre : pre ++ (seg ++ ((hd :: tl) ++ (encodeSegs (hd :: tl) rest ++ tail)))
          = (pre ++ seg ++ (hd :: tl)) ++ (encodeSegs (hd :: tl) rest ++ tail) := by
        simp [List.append_assoc]
      have hlen : pre.length + seg.length + (hd :: tl).length
          = (pre ++ seg ++ (hd :: tl)).length := by
        simp
        omega
      have hrest : ∀ s ∈ rest, hd ∉ s := fun s hs => hsegs s (by simp [hs])
      by_cases hc : (rows ++ [jsSplitOpt seg cd]).length = C
      · rw [if_pos hc]
        rw [if_neg (by simp)]
        rw [hre, hlen]
        rw [ih (pre ++ seg ++ (hd :: tl)) tail [] (n + 1)
          (chunks ++ [(rows ++ [jsSplitOpt seg cd], n)]) f hrest htail
          (by simp at hfl; omega)]
        rw [distChunks, if_pos hc]
        simp
      · rw [if_neg hc]
        rw [hre, hlen]
        rw [ih (pre ++ seg ++ (hd :: tl)) tail (rows ++ [jsSplitOpt seg cd]) n chunks
          f hrest htail (by simp at hfl; omega)]
        rw [distChunks, if_neg hc]

theorem distChunks_flatten (cd : Option Char) (C : Nat) :
    ∀ (segs : List JStr) rows n, rows.length < C →
      ((distChunks cd C segs rows n).map Prod.fst).flatten
        = rows ++ segs.map (fun s => jsSplitOpt s cd) := by
  intro segs
  induction segs with
  | nil =>
    intro rows n h
    rw [distChunks]
    by_cases he : rows.isEmpty
    · simp [he, List.isEmpty_iff.mp he]
    · simp [he]
  | cons seg rest ih =>
    intro rows n h
    rw [distChunks]
    by_cases hc : (rows ++ [jsSplitOpt seg cd]).length = C
    · rw [if_pos hc]
      simp only [List.map_cons, List.flatten_cons]
      rw [ih [] (n + 1) (by simp only [List.length_nil]; omega)]
      simp
    · rw [if_neg hc]
      rw [ih (rows ++ [jsSplitOpt seg cd]) n (by simp at hc ⊢; omega)]
      simp

theorem distChunks_length (cd : Option Char) (C : Nat) (hC : 1 ≤ C) :
    ∀ (segs : List JStr) rows n, rows.length < C →
      (distChunks cd C segs rows n).length = (rows.length + segs.length + C - 1) / C := by
  intro segs
  induction segs with
  | nil =>
    intro rows n h
    rw [distChunks]
    by_cases he : rows.isEmpty
    · have h0 : rows.length = 0 := by simp [List.isEmpty_iff.mp he]
      rw [if_pos he]
      simp only [List.length_nil, h0]
      symm
      apply Nat.div_eq_of_lt
      omega
    · have h0 : rows.length ≠ 0 := by
        simp [List.isEmpty_iff] at he
        simp [he]
      rw [if_neg he]
      simp only [List.length_cons, List.length_nil]
      symm
      apply Nat.div_eq_of_lt_le
      · omega
      · simp only [Nat.succ_mul, Nat.one_mul]
        omega
  | cons seg rest ih =>
    intro rows n h
    rw [distChunks]
    by_cases hc : (rows ++ [jsSplitOpt seg cd]).length = C
    · rw [if_pos hc]
      simp only [List.length_cons]
      rw [ih [] (n + 1) (by simpa using hC)]
      simp only [List.length_nil, List.length_cons, Nat.zero_add]
      simp only [List.length_append, List.length_cons, List.length_nil] at hc
      have h1 : rows.length + (rest.length + 1) + C - 1 = (rest.length + C - 1) + C := by omega
      rw [h1, Nat.add_div_right _ (by omega)]
    · rw [if_neg hc]
      rw [ih (rows ++ [jsSplitOpt seg cd]) n (by simp at hc ⊢; omega)]
      simp only [List.length_append, List.length_cons, List.length_nil]
      congr 1
      omega

theorem distChunks_indices (cd : Option Char) (C : Nat) :
    ∀ (segs : List JStr) rows n, rows.length < C →
      (distChunks cd C segs rows n).map Prod.snd
        = List.range' n (distChunks cd C segs rows n).length := by
  intro segs
  induction segs with
  | nil =>
    intro rows n h
    rw [distChunks]
    by_cases he : rows.isEmpty
    · simp [he]
    · simp [he]
  | cons seg rest ih =>
    intro rows n h
    rw [distChunks]
    by_cases hc : (rows ++ [jsSplitOpt seg cd]).length = C
    · rw [if_pos hc]
      simp only [List.map_cons, List.length_cons]
      rw [ih [] (n + 1) (by simp; omega)]
      rw [List.range'_succ]
    · rw [if_neg hc]
      exact ih (rows ++ [jsSplitOpt seg cd]) n (by simp at hc ⊢; omega)

theorem jsSplitC_ne_nil (sep : Char) : ∀ s : JStr, jsSplitC s sep ≠ [] := by
  intro s
  cases s with
  | nil => simp [jsSplitC]
  | cons c t =>
    rw [jsSplitC]
    cases h : jsSplitC t sep with
    | nil => simp
    | cons hh rest =>
      by_cases hc : c = sep <;> simp [hc]

theorem jsJoin_jsSplitC (sep : Char) : ∀ s : JStr, jsJoin sep (jsSplitC s sep) = s := by
  intro s
  induction s with
  | nil => rfl
  | cons c t ih =>
    rcases h : jsSplitC t sep with _ | ⟨hh, rest⟩
    · exact absurd h (jsSplitC_ne_nil sep t)
    · rw [h] at ih
      have hstep : jsSplitC (c :: t) sep
          = if c = sep then [] :: hh :: rest else (c :: hh) :: rest := by
        rw [jsSplitC, h]
      rw [hstep]
      by_cases hc : c = sep
      · rw [if_pos hc]
        rw [jsJoin]
        rw [ih, hc]
        rfl
      · rw [if_neg hc]
        cases rest with
        | nil =>
          rw [jsJoin] at ih ⊢
          rw [ih]
        | cons r rs =>
          rw [jsJoin] at ih ⊢
          rw [List.cons_append, ih]

/-! ## Claim C6 — row limit (src quote-free path) -/

/-- C6 (amended): on the quote-free path, for a row limit `k` with
`1 ≤ k ≤ CHUNK_SIZE` and an input starting with at least `k`
delimiter-terminated rows, `parse` produces exactly the first `k` rows in
one callback, and the result does not depend on the text following the
`k`-th row terminator (`tail` and the segments beyond `k` are arbitrary). -/
theorem C6_rowLimit_amended (hd : Char) (tl : JStr) (cd : Option Char) (k : Nat)
    (segs : List JStr) (tail : JStr) (fuel : Nat)
    (hk1 : 1 ≤ k) (hkC : k ≤ CHUNK_SIZE) (hks : k ≤ segs.length)
    (hsegs : ∀ s ∈ segs, hd ∉ s) (htail : hd ∉ tail) (hfuel : segs.length + 1 ≤ fuel) :
    Src.parseNoQuote (encodeSegs (hd :: tl) segs ++ tail) (hd :: tl) cd (some k) fuel 0 [] []
        = some [(segs.take k).map (fun s => jsSplitOpt s cd)]
      ∧ ((segs.take k).map (fun s => jsSplitOpt s cd)).length = k := by
  have h := Src.parseNoQuote_encode hd tl cd (some k) segs [] tail [] [] fuel hsegs htail hfuel
  simp only [List.length_nil, List.nil_append] at h
  constructor
  · rw [h]
    rw [chunkLoop_limit cd k hk1 hkC segs [] []
      (by simp only [List.length_nil]; omega) (by simp only [List.length_nil]; omega)]
    simp
  · simp only [List.length_map, List.length_take]
    omega

/-- Witness for C6 (amended): limit 2 on a four-row text (the last row
unterminated) yields exactly the first two rows. -/
theorem C6_rowLimit_amended_witness :
    Src.parseNoQuote (sToL "1,2\n3,4\n5,6\n7,8") ['\n'] (some ',') (some 2) 10 0 [] []
      = some [[[['1'], ['2']], [['3'], ['4']]]] := by
  have he : sToL "1,2\n3,4\n5,6\n7,8"
      = encodeSegs ['\n'] [sToL "1,2", sToL "3,4", sToL "5,6"] ++ sToL "7,8" := by decide
  have h := (C6_rowLimit_amended '\n' [] (some ',') 2
    [sToL "1,2", sToL "3,4", sToL "5,6"] (sToL "7,8") 10
    (by decide) (by decide) (by decide) (by decide) (by decide) (by decide)).1
  rw [he, h]
  decide

/-- Counterexample to C6 as stated: with row limit `k = 0` the quote-free
loop's `rows.length === limit` check can never fire (it runs only after a
push), so the whole two-row input is parsed instead of zero rows. -/
theorem C6_rowLimit_counterexample :
    Src.parseNoQuote (sToL "x\ny\n") ['\n'] (some ',') (some 0) 50 0 [] []
        = some [[[['x']], [['y']]]]
      ∧ ([[[['x']], [['y']]]] : List (List (List JStr))).flatten.length = 2
      ∧ (2 : Nat) ≠ 0 := by
  refine ⟨by decide, by decide, by decide⟩

/-! ## Claim C5 — round-trip (src quote-free path) -/

/-- C5 (amended): on the quote-free path, parsing a text of
delimiter-terminated rows and rejoining each row's fields with the column
delimiter and terminating each rejoined row with the row delimiter
reproduces the text exactly.  (Rejoining rows with the delimiter only
between rows, as the claim literally states, loses the trailing
terminator — see the counterexample.) -/
theorem C5_roundTrip_amended (hd : Char) (tl : JStr) (d : Char) (segs : List JStr)
    (fuel : Nat) (hsegs : ∀ s ∈ segs, hd ∉ s) (hfuel : segs.length + 1 ≤ fuel) :
    ∃ out, Src.parseNoQuote (encodeSegs (hd :: tl) segs) (hd :: tl) (some d) none fuel 0 [] []
        = some out
      ∧ rejoinRows d (hd :: tl) out.flatten = encodeSegs (hd :: tl) segs := by
  have h := Src.parseNoQuote_encode hd tl (some d) none segs [] [] [] [] fuel hsegs
    (by simp) hfuel
  simp only [List.length_nil, List.nil_append, List.append_nil] at h
  refine ⟨_, h, ?_⟩
  rw [chunkLoop_nolimit_flatten]
  simp only [List.flatten_nil, List.nil_append]
  rw [rejoinRows, encodeSegs, List.map_map]
  congr 1
  apply List.map_congr_left
  intro s _
  simp only [Function.comp_apply, jsSplitOpt]
  rw [jsJoin_jsSplitC]

/-- Witness for C5 (amended) on a two-row text. -/
theorem C5_roundTrip_amended_witness :
    ∃ out, Src.parseNoQuote (sToL "a,b\nc,d\n") ['\n'] (some ',') none 10 0 [] [] = some out
      ∧ rejoinRows ',' ['\n'] out.flatten = sToL "a,b\nc,d\n" := by
  have he : sToL "a,b\nc,d\n" = encodeSegs ['\n'] [sToL "a,b", sToL "c,d"] := by decide
  rw [he]
  exact C5_roundTrip_amended '\n' [] ',' [sToL "a,b", sToL "c,d"] 10 (by decide) (by decide)

/-- Counterexample to C5 as stated: parsing `"a,b\n"` (no embedded
delimiters in any field) and rejoining fields with `','` and rows with
`"\n"` yields `"a,b"`, not the original text — the trailing row terminator
is not reproduced. -/
theorem C5_roundTrip_counterexample :
    Src.parseNoQuote (sToL "a,b\n") ['\n'] (some ',') none 10 0 [] []
        = some [[[['a'], ['b']]]]
      ∧ interRows ',' ['\n'] ([[[['a'], ['b']]]] : List (List (List JStr))).flatten
          ≠ sToL "a,b\n" := by
  refine ⟨by decide, by decide⟩

/-! ## Claim C1 — chunking invariant (dist quote-free path) -/

/-- C1 (amended): on the built quote-free path with chunk size `C ≥ 1` and
no chunk limit, parsing `R` delimiter-terminated rows invokes the callback
`⌈R / C⌉` times, with chunk indices `0, 1, …` in strictly increasing order,
and the concatenation of all chunks is exactly the `R` rows in input order.
(On the quoted path an extra trailing row is emitted when the text ends
with the row delimiter — see the counterexample and claim C10.) -/
theorem C1_chunking_amended (hd : Char) (tl : JStr) (cd : Option Char) (C : Nat)
    (segs : List JStr) (fuel : Nat) (hC : 1 ≤ C)
    (hsegs : ∀ s ∈ segs, hd ∉ s) (hfuel : segs.length + 1 ≤ fuel) :
    ∃ out, Dist.parseNoQuote (encodeSegs (hd :: tl) segs) (hd :: tl) cd C none fuel 0 [] 0 []
        = some out
      ∧ out.length = (segs.length + C - 1) / C
      ∧ out.map Prod.snd = List.range out.length
      ∧ (out.map Prod.fst).flatten = segs.map (fun s => jsSplitOpt s cd) := by
  have h := Dist.parseNoQuoteEncode hd tl cd C segs [] [] [] 0 [] fuel hsegs (by simp) hfuel
  simp only [List.length_nil, List.nil_append, List.append_nil] at h
  refine ⟨_, h, ?_, ?_, ?_⟩
  · rw [distChunks_length cd C hC segs [] 0 (by simp only [List.length_nil]; omega)]
    simp
  · rw [distChunks_indices cd C segs [] 0 (by simp only [List.length_nil]; omega)]
    rw [List.range_eq_range']
  · rw [distChunks_flatten cd C segs [] 0 (by simp only [List.length_nil]; omega)]
    simp

/-- Witness for C1 (amended): five rows with chunk size 2 give three
callbacks, indices 0, 1, 2, 2+2+1 rows. -/
theorem C1_chunking_amended_witness :
    ∃ out, Dist.parseNoQuote (sToL "a\nb\nc\nd\ne\n") ['\n'] (some ',') 2 none 10 0 [] 0 []
        = some out
      ∧ out.length = 3
      ∧ out.map Prod.snd = [0, 1, 2]
      ∧ (out.map Prod.fst).flatten = [[['a']], [['b']], [['c']], [['d']], [['e']]] := by
  have he : sToL "a\nb\nc\nd\ne\n"
      = encodeSegs ['\n'] [['a'], ['b'], ['c'], ['d'], ['e']] := by decide
  rw [he]
  obtain ⟨out, h1, h2, h3, h4⟩ := C1_chunking_amended '\n' [] (some ',') 2
    [['a'], ['b'], ['c'], ['d'], ['e']] 10 (by decide) (by decide) (by decide)
  refine ⟨out, h1, by rw [h2]; decide, by rw [h3, h2]; decide, by rw [h4]; decide⟩

/-- Counterexample to C1 as stated: on the quoted path, the one-row input
`"a\n"` (its single row delimiter-terminated) produces one callback whose
chunk holds two rows — the real row and the trailing phantom row — so
concatenating the emitted chunks does not yield exactly R = 1 rows. -/
theorem C1_chunking_counterexample :
    sToL "a\n" = encodeSegs ['\n'] [['a']]
    ∧ Dist.parse (sToL "a\n") ⟨some '"', ⟨some ',', [['x']], []⟩, ⟨['\n']⟩⟩ 5000 none none 50
        = some (Except.ok [([[some ['a']], [some []]], 0)])
    ∧ ([[some ['a']], [some []]] : List Row).length = 2
    ∧ (2 : Nat) ≠ ([(['a'] : JStr)] : List JStr).length := by
  refine ⟨by decide, by decide, by decide, by decide⟩

/-! ## Claim C3 — sniffing without a candidate delimiter -/

theorem Src.parseNoQuote_total (csv rd : JStr) (cd : Option Char) (limit : Option Nat)
    (hrd : rd ≠ []) :
    ∀ fuel pos rows chunks, csv.length + 1 - pos < fuel →
      ∃ out, Src.parseNoQuote csv rd cd limit fuel pos rows chunks = some out := by
  intro fuel
  induction fuel with
  | zero => intro pos rows chunks h; omega
  | succ f ih =>
    intro pos rows chunks h
    rw [Src.parseNoQuote_succ]
    cases hf : findSubFrom csv rd pos with
    | none => exact ⟨_, rfl⟩
    | some idx =>
      have hb := findSubFrom_bound csv rd pos idx hf
      have hrd1 : 1 ≤ rd.length := by
        cases rd with
        | nil => exact absurd rfl hrd
        | cons a t => simp
      simp only []
      by_cases hl : limit = some (rows ++ [jsSplitOpt (jsSlice csv pos idx) cd]).length
      · rw [if_pos hl]
        exact ⟨_, rfl⟩
      · rw [if_neg hl]
        by_cases hc : (rows ++ [jsSplitOpt (jsSlice csv pos idx) cd]).length = CHUNK_SIZE
        · rw [if_pos hc]
          exact ih (idx + rd.length) [] _ (by omega)
        · rw [if_neg hc]
          exact ih (idx + rd.length) _ _ (by omega)

theorem Src.parseNoQuote_flatten_grows (csv rd : JStr) (cd : Option Char)
    (limit : Option Nat) :
    ∀ fuel pos rows chunks out,
      Src.parseNoQuote csv rd cd limit fuel pos rows chunks = some out →
      (chunks.flatten ++ rows) <+: out.flatten := by
  intro fuel
  induction fuel with
  | zero => intro pos rows chunks out h; cases h
  | succ f ih =>
    intro pos rows chunks out h
    rw [Src.parseNoQuote_succ] at h
    cases hf : findSubFrom csv rd pos with
    | none =>
      rw [hf] at h
      simp only [] at h
      by_cases he : rows.isEmpty
      · rw [if_pos he] at h
        cases h
        simp [List.isEmpty_iff.mp he]
      · rw [if_neg he] at h
        cases h
        simp
    | some idx =>
      rw [hf] at h
      simp only [] at h
      by_cases hl : limit = some (rows ++ [jsSplitOpt (jsSlice csv pos idx) cd]).length
      · rw [if_pos hl] at h
        cases h
        simp only [List.flatten_append, List.flatten_cons, List.flatten_nil]
        refine ⟨[jsSplitOpt (jsSlice csv pos idx) cd], ?_⟩
        simp
      · rw [if_neg hl] at h
        by_cases hc : (rows ++ [jsSplitOpt (jsSlice csv pos idx) cd]).length = CHUNK_SIZE
        · rw [if_pos hc] at h
          have := ih _ _ _ _ h
          simp only [List.flatten_append, List.flatten_cons, List.flatten_nil,
            List.append_nil] at this
          refine List.IsPrefix.trans ?_ this
          refine ⟨[jsSplitOpt (jsSlice csv pos idx) cd], ?_⟩
          simp
        · rw [if_neg hc] at h
          have := ih _ _ _ _ h
          refine List.IsPrefix.trans ?_ this
          refine ⟨[jsSplitOpt (jsSlice csv pos idx) cd], ?_⟩
          simp

theorem Src.parseNoQuote_first_row (csv rd : JStr) (cd : Option Char) (limit : Option Nat)
    (hrd : rd ≠ []) (j : Nat) (hj : rd.isPrefixOf (csv.drop j)) (hjl : j ≤ csv.length)
    (fuel : Nat) (hfuel : csv.length + 2 ≤ fuel) :
    ∃ out, Src.parseNoQuote csv rd cd limit fuel 0 [] [] = some out ∧ out.flatten ≠ [] := by
  match fuel, hfuel with
  | f + 1, hfl =>
    rw [Src.parseNoQuote_succ]
    obtain ⟨idx, hidx⟩ := findSubFrom_isSome csv rd j hj hjl 0 (Nat.zero_le j)
    rw [hidx]
    have hb := findSubFrom_bound csv rd 0 idx hidx
    have hrd1 : 1 ≤ rd.length := by
      cases rd with
      | nil => exact absurd rfl hrd
      | cons a t => simp
    simp only [Nat.cast_zero]
    by_cases hl : limit = some ([] ++ [jsSplitOpt (jsSlice csv 0 idx) cd]).length
    · rw [if_pos hl]
      refine ⟨_, rfl, ?_⟩
      simp
    · rw [if_neg hl]
      have hc : ¬ ([] ++ [jsSplitOpt (jsSlice csv 0 idx) cd]).length = CHUNK_SIZE := by
        simp [CHUNK_SIZE]
      rw [if_neg hc]
      obtain ⟨out, hout⟩ := Src.parseNoQuote_total csv rd cd limit hrd f (idx + rd.length)
        ([] ++ [jsSplitOpt (jsSlice csv 0 idx) cd]) [] (by omega)
      refine ⟨out, hout, ?_⟩
      have hp := Src.parseNoQuote_flatten_grows csv rd cd limit f _ _ _ _ hout
      simp only [List.flatten_nil, List.nil_append] at hp
      intro hemp
      rw [hemp] at hp
      have := hp.length_le
      simp at this

theorem dropWhile_head_not (p : Char → Bool) :
    ∀ (l : List Char) c t, l.dropWhile p = c :: t → p c = false := by
  intro l
  induction l with
  | nil => intro c t h; cases h
  | cons a l' ih =>
    intro c t h
    rw [List.dropWhile_cons] at h
    by_cases hp : p a
    · rw [if_pos hp] at h
      exact ih c t h
    · rw [if_neg hp] at h
      cases h
      simpa using hp

theorem drop_takeWhile_length (p : Char → Bool) (l : List Char) :
    l.drop (l.takeWhile p).length = l.dropWhile p := by
  calc l.drop (l.takeWhile p).length
      = (l.takeWhile p ++ l.dropWhile p).drop (l.takeWhile p).length := by
        rw [List.takeWhile_append_dropWhile]
    _ = l.dropWhile p := List.drop_left _ _

theorem flatten_map_map {α β : Type} (f : α → β) (l : List (List α)) :
    (l.map (List.map f)).flatten = l.flatten.map f := by
  induction l with
  | nil => rfl
  | cons x t ih =>
    simp only [List.map_cons, List.flatten_cons, List.map_append, ih]

theorem C3_schema_core (csv : JStr) (fuel : Nat)
    (hdelim : ∀ d ∈ COL_DELIMS, d ∉ (firstRowMatch csv).1)
    (hquote : '"' ∉ csv)
    (hrd : (firstRowMatch csv).2 ≠ [])
    (hpre : (firstRowMatch csv).2.isPrefixOf (csv.drop ((firstRowMatch csv).1).length))
    (hfst : ((firstRowMatch csv).1).length ≤ csv.length)
    (hfuel : csv.length + 2 ≤ fuel) :
    ∃ s, Src.schema csv 10 fuel = some (Except.ok s) ∧ s.cols.delim = none := by
  have hcd : COL_DELIMS.find? (fun d => ((firstRowMatch csv).1).contains d) = none := by
    rw [List.find?_eq_none]
    intro d hd
    intro hcont
    exact hdelim d hd (by simpa using hcont)
  have hq : csv.contains '"' = false := by
    simpa using hquote
  obtain ⟨out, hout, hne⟩ := Src.parseNoQuote_first_row csv (firstRowMatch csv).2 none
    (some 10) hrd ((firstRowMatch csv).1).length hpre hfst fuel hfuel
  simp only [Src.schema, Src.parse, hcd, hq, Bool.false_eq_true, if_false,
    List.isEmpty_nil, if_true, hout, Option.map_some']
  rcases hofl : out.flatten with _ | ⟨r0, rs⟩
  · exact absurd hofl hne
  · have hm : (List.map (fun ch => List.map (fun r => List.map some r) ch) out).flatten
        = (r0.map some) :: rs.map (fun r => r.map some) := by
      calc (List.map (fun ch => List.map (fun r => List.map some r) ch) out).flatten
          = (out.map (List.map (fun r => r.map some))).flatten := rfl
        _ = out.flatten.map (fun r => r.map some) := flatten_map_map _ out
        _ = (r0.map some) :: rs.map (fun r => r.map some) := by rw [hofl]; rfl
    rw [hm, schemaFinish]
    exact ⟨_, rfl, rfl⟩

theorem firstRowMatch_fst (csv : JStr) :
    (firstRowMatch csv).1 = csv.takeWhile (fun c => !(c == '\n' || c == '\r')) := by
  rw [firstRowMatch]
  split <;> rfl

theorem firstRowMatch_snd_spec (csv : JStr)
    (hne : csv.dropWhile (fun c => !(c == '\n' || c == '\r')) ≠ []) :
    (firstRowMatch csv).2 ≠ []
    ∧ (firstRowMatch csv).2.isPrefixOf (csv.drop ((firstRowMatch csv).1).length) := by
  rcases hcons : csv.dropWhile (fun c => !(c == '\n' || c == '\r')) with _ | ⟨c0, t0⟩
  · exact absurd hcons hne
  have hd2 : csv.drop (csv.takeWhile (fun c => !(c == '\n' || c == '\r'))).length
      = c0 :: t0 := by
    rw [drop_takeWhile_length, hcons]
  have hc0 := dropWhile_head_not (fun c => !(c == '\n' || c == '\r')) csv c0 t0 hcons
  have hc0' : c0 = '\n' ∨ c0 = '\r' := by
    by_cases h1 : c0 = '\n'
    · exact Or.inl h1
    · right
      simp [h1] at hc0
      exact hc0
  rw [firstRowMatch_fst, drop_takeWhile_length, hcons]
  rw [firstRowMatch]
  rw [hd2]
  split
  · rename_i t heq
    cases heq
    constructor
    · simp
    · simp [List.isPrefixOf]
  · rename_i x t hgu heq
    cases heq
    constructor
    · simp
    · simp [List.isPrefixOf]
  · rename_i t heq
    cases heq
    constructor
    · simp
    · simp [List.isPrefixOf]
  · rename_i x h1 h2 h3
    exfalso
    rcases hc0' with h | h
    · exact h3 t0 (by rw [h])
    · exact h2 t0 (by rw [h])

/-- C3 (amended): for an input whose first line contains none of the
candidate column delimiters, the sniffer raises no error at all (no
`NoDelimiterFound` exists in the code): provided the text has at least one
line break and no quote character, `schema` returns successfully, with the
column delimiter left `undefined` in the returned schema. -/
theorem C3_sniffer_amended (csv : JStr) (fuel : Nat)
    (hdelim : ∀ d ∈ COL_DELIMS, d ∉ (firstRowMatch csv).1)
    (hquote : '"' ∉ csv)
    (hnl : '\n' ∈ csv ∨ '\r' ∈ csv)
    (hfuel : csv.length + 2 ≤ fuel) :
    ∃ s, Src.schema csv 10 fuel = some (Except.ok s) ∧ s.cols.delim = none := by
  have hdw : csv.dropWhile (fun c => !(c == '\n' || c == '\r')) ≠ [] := by
    intro h
    rcases hnl with h1 | h1
    · have := (List.dropWhile_eq_nil_iff.mp h) _ h1
      simp at this
    · have := (List.dropWhile_eq_nil_iff.mp h) _ h1
      simp at this
  obtain ⟨hrd, hpre⟩ := firstRowMatch_snd_spec csv hdw
  have hfst : ((firstRowMatch csv).1).length ≤ csv.length := by
    rw [firstRowMatch_fst]
    exact (List.takeWhile_prefix _).length_le
  exact C3_schema_core csv fuel hdelim hquote hrd hpre hfst hfuel

/-- Witness for C3 (amended): a delimiter-free two-line text sniffs
successfully with an undefined column delimiter. -/
theorem C3_sniffer_amended_witness :
    ∃ s, Src.schema (sToL "hello\nworld\n") 10 16 = some (Except.ok s)
      ∧ s.cols.delim = none :=
  C3_sniffer_amended (sToL "hello\nworld\n") 16 (by decide) (by decide)
    (Or.inl (by decide)) (by decide)

/-- Counterexample to C3 as stated: on a header with no candidate
delimiter, `schema` does not fail — it returns a full schema object (the
whole line treated as one column, `Object.keys` of the quote-free row
giving the index string "0" as the column name), with `cols.delim`
undefined. -/
theorem C3_sniffer_counterexample :
    Src.schema (sToL "abc\nxyz\n") 10 12
      = some (Except.ok { quote := []
                          cols := { delim := none, names := [['0']], types := [some 's'] }
                          rows := { delim := ['\n'] } }) := by
  decide

/-! ## Claim C4 — numeric type inference in the prober -/

theorem jsArrSetC_length (ts : List (Option Char)) (i : Nat) (x : Char) :
    ts.length ≤ (jsArrSetC ts i x).length := by
  unfold jsArrSetC
  by_cases h : i < ts.length
  · simp [h]
  · rw [if_neg h]
    simp only [List.length_append, List.length_replicate, List.length_cons,
      List.length_nil]
    omega

theorem jsArrSetC_get (ts : List (Option Char)) (i j : Nat) (x : Char)
    (hj : j < ts.length) :
    (jsArrSetC ts i x)[j]? = if j = i then some (some x) else ts[j]? := by
  unfold jsArrSetC
  by_cases h : i < ts.length
  · rw [if_pos h]
    rw [List.getElem?_set]
    by_cases hij : i = j
    · simp [hij, hj]
    · simp [hij, show j ≠ i from fun he => hij he.symm]
  · rw [if_neg h]
    have hji : j ≠ i := by omega
    rw [if_neg hji]
    rw [List.getElem?_append]
    rw [if_pos (by simp only [List.length_append, List.length_replicate]; omega)]
    rw [List.getElem?_append]
    rw [if_pos hj]

theorem probeRow_foldl_length :
    ∀ (l : List (Nat × Option JStr)) (ts : List (Option Char)),
      ts.length ≤ (l.foldl (fun ts p => match p.2 with
        | none => ts
        | some v => if jsNumberNotNaN v then jsArrSetC ts p.1 'n' else ts) ts).length := by
  intro l
  induction l with
  | nil => intro ts; simp
  | cons p l' ih =>
    intro ts
    rw [List.foldl_cons]
    refine Nat.le_trans ?_ (ih _)
    cases hp : p.2 with
    | none => simp
    | some v =>
      simp only []
      by_cases hv : jsNumberNotNaN v
      · rw [if_pos hv]
        exact jsArrSetC_length ts p.1 'n'
      · rw [if_neg hv]

theorem probeRowTypes_length (ts : List (Option Char)) (r : Row) :
    ts.length ≤ (probeRowTypes ts r).length :=
  probeRow_foldl_length r.enum ts

theorem probeRow_foldl_get (c : Nat) :
    ∀ (r : Row) (k : Nat) (ts : List (Option Char)), c < ts.length →
      (((List.enumFrom k r).foldl (fun ts p => match p.2 with
        | none => ts
        | some v => if jsNumberNotNaN v then jsArrSetC ts p.1 'n' else ts) ts)[c]?
          = some (some 'n')
        ↔ (ts[c]? = some (some 'n')
            ∨ ∃ j v, r[j]? = some (some v) ∧ k + j = c ∧ jsNumberNotNaN v)) := by
  intro r
  induction r with
  | nil =>
    intro k ts hc
    simp
  | cons a r' ih =>
    intro k ts hc
    have hshift : ∀ b : Option JStr,
        (∃ j v, (b :: r')[j]? = some (some v) ∧ k + j = c ∧ jsNumberNotNaN v)
          ↔ ((∃ v, b = some v ∧ k = c ∧ jsNumberNotNaN v)
              ∨ ∃ j v, r'[j]? = some (some v) ∧ (k + 1) + j = c ∧ jsNumberNotNaN v) := by
      intro b
      constructor
      · rintro ⟨j, v, hj, hk, hv⟩
        cases j with
        | zero =>
          left
          refine ⟨v, ?_, by omega, hv⟩
          simpa using hj
        | succ j' =>
          right
          exact ⟨j', v, by simpa using hj, by omega, hv⟩
      · rintro (⟨v, hb, hk, hv⟩ | ⟨j, v, hj, hk, hv⟩)
        · exact ⟨0, v, by simp [hb], by omega, hv⟩
        · exact ⟨j + 1, v, by simpa using hj, by omega, hv⟩
    rw [show List.enumFrom k (a :: r') = (k, a) :: List.enumFrom (k + 1) r' from rfl]
    rw [List.foldl_cons]
    cases a with
    | none =>
      simp only []
      rw [ih (k + 1) ts hc, hshift none]
      constructor
      · rintro (h | h)
        · exact Or.inl h
        · exact Or.inr (Or.inr h)
      · rintro (h | (⟨v, hb, _, _⟩ | h))
        · exact Or.inl h
        · cases hb
        · exact Or.inr h
    | some v =>
      simp only []
      by_cases hv : jsNumberNotNaN v
      · rw [if_pos hv]
        have hc' : c < (jsArrSetC ts k 'n').length :=
          Nat.lt_of_lt_of_le hc (jsArrSetC_length ts k 'n')
        rw [ih (k + 1) _ hc', hshift (some v)]
        rw [jsArrSetC_get ts k c 'n' hc]
        by_cases hck : c = k
        · rw [if_pos hck]
          constructor
          · intro _
            exact Or.inr (Or.inl ⟨v, rfl, by omega, hv⟩)
          · intro _
            exact Or.inl rfl
        · rw [if_neg hck]
          constructor
          · rintro (h | h)
            · exact Or.inl h
            · exact Or.inr (Or.inr h)
          · rintro (h | (⟨v', hb, hk, _⟩ | h))
            · exact Or.inl h
            · exact absurd hk.symm (by omega)
            · exact Or.inr h
      · rw [if_neg hv]
        rw [ih (k + 1) ts hc, hshift (some v)]
        constructor
        · rintro (h | h)
          · exact Or.inl h
          · exact Or.inr (Or.inr h)
        · rintro (h | (⟨v', hb, hk, hv'⟩ | h))
          · exact Or.inl h
          · cases hb
            exact absurd hv' hv
          · exact Or.inr h

theorem probeTypes_get (c : Nat) :
    ∀ (rows : List Row) (ts : List (Option Char)), c < ts.length →
      ((probeTypes ts rows)[c]? = some (some 'n')
        ↔ (ts[c]? = some (some 'n')
            ∨ ∃ r ∈ rows, ∃ v, r[c]? = some (some v) ∧ jsNumberNotNaN v)) := by
  intro rows
  induction rows with
  | nil =>
    intro ts hc
    simp [probeTypes]
  | cons r rows' ih =>
    intro ts hc
    have hstep : probeTypes ts (r :: rows') = probeTypes (probeRowTypes ts r) rows' := rfl
    rw [hstep]
    rw [ih _ (Nat.lt_of_lt_of_le hc (probeRowTypes_length ts r))]
    have hrow := probeRow_foldl_get c r 0 ts hc
    have hrow' : (probeRowTypes ts r)[c]? = some (some 'n')
        ↔ (ts[c]? = some (some 'n')
            ∨ ∃ v, r[c]? = some (some v) ∧ jsNumberNotNaN v) := by
      refine hrow.trans (or_congr_right ?_)
      constructor
      · rintro ⟨j, v, hj, hk, hv⟩
        have : j = c := by omega
        subst this
        exact ⟨v, hj, hv⟩
      · rintro ⟨v, hj, hv⟩
        exact ⟨c, v, hj, by omega, hv⟩
    rw [hrow']
    rw [or_assoc]
    apply or_congr_right
    constructor
    · rintro (⟨v, hv, hok⟩ | ⟨r', hr', hrest⟩)
      · exact ⟨r, by simp, v, hv, hok⟩
      · exact ⟨r', by simp [hr'], hrest⟩
    · rintro ⟨r', hr', v, hv, hok⟩
      rcases List.mem_cons.mp hr' with h | h
      · subst h
        exact Or.inl ⟨v, hv, hok⟩
      · exact Or.inr ⟨r', h, v, hv, hok⟩

/-- C4 (amended): a sampled column is inferred numeric if and only if at
least one sampled value in it converts to a non-NaN number under the
JavaScript unary-plus conversion (so `""`, `"Infinity"` and hex literals
count as numeric, and one numeric sample suffices even among non-numeric
ones); otherwise it keeps the default string type. -/
theorem C4_typeProbe_amended (n c : Nat) (rows : List Row) (hc : c < n) :
    ((probeTypes (List.replicate n (some 's')) rows)[c]? = some (some 'n')
      ↔ ∃ r ∈ rows, ∃ v, r[c]? = some (some v) ∧ jsNumberNotNaN v) := by
  have hrep : c < (List.replicate n (some 's') : List (Option Char)).length := by
    simpa using hc
  rw [probeTypes_get c rows _ hrep]
  refine or_iff_right ?_
  simp [List.getElem?_replicate, hc]

/-- Witness for C4 (amended): with samples `["x"]` and `["1"]`, the single
column is marked numeric because of the `"1"`. -/
theorem C4_typeProbe_amended_witness :
    ((probeTypes (List.replicate 1 (some 's'))
        [[some ['x']], [some ['1']]])[0]? = some (some 'n')
      ↔ ∃ r ∈ [[some (['x'] : JStr)], [some ['1']]], ∃ v, r[0]? = some (some v)
          ∧ jsNumberNotNaN v) :=
  C4_typeProbe_amended 1 0 [[some ['x']], [some ['1']]] (by decide)

/-- Counterexample to C4 as stated: on the input `"a,b\nx,1\n1,2\n"` the
sampled first column holds `"x"` (not a number) and `"1"`, yet `schema`
infers type `'n'` for it — the probe marks a column numeric when any
sampled value is numeric, not when all are. -/
theorem C4_typeProbe_counterexample :
    Src.schema (sToL "a,b\nx,1\n1,2\n") 10 80
      = some (Except.ok { quote := []
                          cols := { delim := some ',', names := [['0'], ['1']],
                                    types := [some 'n', some 'n'] }
                          rows := { delim := ['\n'] } })
    ∧ jsNumberNotNaN (sToL "x") = false
    ∧ Src.parseNoQuote (sToL "a,b\nx,1\n1,2\n") ['\n'] (some ',') (some 10) 80 0 [] []
        = some [[[['a'], ['b']], [['x'], ['1']], [['1'], ['2']]]] := by
  refine ⟨by decide, by decide, by decide⟩

/-! ## Claim C7 — unterminated quote -/

/-- Counterexample to C7 as stated: on the unterminated quoted input
`"abc` (one column), the tokenizer does not close the field with its
accumulated text `abc`. -/
theorem C7_unterminatedQuote_counterexample :
    Src.parse (sToL "\"abc")
        { quote := ['"']
          cols := { delim := some ',', names := [['x']], types := [] }
          rows := { delim := ['\n'] } } none none 50
      ≠ some (Except.ok [[[some (sToL "abc")]]]) := by
  decide

/-- C7 (amended): when input ends inside a quoted field, `parse` raises no
error and terminates, but it does not simply close the field with the
accumulated text: `indexOf` returns -1, `slice(pos, -1)` drops the last
character, and the scan position wraps to the first quote and re-scans, so
`"abc` (one column) parses to the single field `ababc`. -/
theorem C7_unterminatedQuote_amended :
    Src.parse (sToL "\"abc")
        { quote := ['"']
          cols := { delim := some ',', names := [['x']], types := [] }
          rows := { delim := ['\n'] } } none none 50
      = some (Except.ok [[[some (sToL "ababc")]]]) := by
  decide

/-! ## Claim C2 — the concrete scenario -/

/-- Counterexample to C2 as stated: the scenario input ends with the row
delimiter, so after the header the built parse emits three rows, not
exactly the claimed two — the last is the trailing phantom row
`[some "", hole, hole]`. -/
theorem C2_concrete_counterexample :
    Dist.parse (sToL "id,name,active\n1,Alice,true\n2,\"Bob, Jr.\",false\n")
        { quote := some '"'
          cols := { delim := some ',',
                    names := [sToL "id", sToL "name", sToL "active"], types := [] }
          rows := { delim := ['\n'] } } 5000 none none 300
      = some (Except.ok
          [([[some (sToL "id"), some (sToL "name"), some (sToL "active")],
             [some ['1'], some (sToL "Alice"), some (sToL "true")],
             [some ['2'], some (sToL "Bob, Jr."), some (sToL "false")],
             [some [], none, none]], 0)])
    ∧ ([[some (sToL "id"), some (sToL "name"), some (sToL "active")],
        [some ['1'], some (sToL "Alice"), some (sToL "true")],
        [some ['2'], some (sToL "Bob, Jr."), some (sToL "false")],
        [some [], none, none]] : List Row).length ≠ 3 := by
  refine ⟨by decide, by decide⟩

/-- C2 (amended): the scenario input parses (after the header) to the two
claimed rows plus one trailing phantom row caused by the final row
delimiter, and the compiled positional coercion built from the two data
rows maps them to `[1, "Alice", true]` and `[2, "Bob, Jr.", false]` —
number, string and boolean classifications respectively. -/
theorem C2_concrete_amended :
    Dist.parse (sToL "id,name,active\n1,Alice,true\n2,\"Bob, Jr.\",false\n")
        { quote := some '"'
          cols := { delim := some ',',
                    names := [sToL "id", sToL "name", sToL "active"], types := [] }
          rows := { delim := ['\n'] } } 5000 none none 300
      = some (Except.ok
          [([[some (sToL "id"), some (sToL "name"), some (sToL "active")],
             [some ['1'], some (sToL "Alice"), some (sToL "true")],
             [some ['2'], some (sToL "Bob, Jr."), some (sToL "false")],
             [some [], none, none]], 0)])
    ∧ genToTypedFn [sToL "id", sToL "name", sToL "active"]
        [[some ['1'], some (sToL "Alice"), some (sToL "true")],
         [some ['2'], some (sToL "Bob, Jr."), some (sToL "false")]]
        [[some ['1'], some (sToL "Alice"), some (sToL "true")],
         [some ['2'], some (sToL "Bob, Jr."), some (sToL "false")]]
      = [[JsValue.num 1 0, JsValue.str (sToL "Alice"), JsValue.bool true],
         [JsValue.num 2 0, JsValue.str (sToL "Bob, Jr."), JsValue.bool false]] := by
  refine ⟨by decide, by decide⟩

/-! ## Claim C8 — missing trailing row terminator -/

/-- Counterexample to C8 as stated: on the quote-free fast path the final
unterminated row is not tolerated but dropped — `"a,b\nc,d"` parses to the
single row `["a","b"]`, losing `["c","d"]` entirely. -/
theorem C8_lastRow_counterexample :
    Src.parse (sToL "a,b\nc,d")
        { quote := []
          cols := { delim := some ',', names := [['x'], ['y']], types := [] }
          rows := { delim := ['\n'] } } none none 30
      = some (Except.ok [[[some ['a'], some ['b']]]])
    ∧ ([[[some ['a'], some ['b']]]] : List (List Row))
        ≠ [[[some ['a'], some ['b']], [some ['c'], some ['d']]]] := by
  refine ⟨by decide, by decide⟩

/-- C8 (amended): the tolerance holds only on the quoted state-machine path.
On the quote-free fast path, rows are pushed only at row-delimiter matches,
so the output on terminated rows followed by any delimiter-free unterminated
tail equals the output on the terminated rows alone — the final row is
dropped, not emitted.  On the quoted path the trailing field and row are
committed at end of input: `"a,b\nc,d"` parses to both rows. -/
theorem C8_lastRow_amended (hd : Char) (tl : JStr) (cd : Option Char) (segs : List JStr)
    (tail : JStr) (fuel : Nat)
    (h1 : ∀ s ∈ segs, hd ∉ s) (h2 : hd ∉ tail) (h3 : segs.length + 1 ≤ fuel) :
    Src.parseNoQuote (encodeSegs (hd :: tl) segs ++ tail) (hd :: tl) cd none fuel 0 [] []
      = Src.parseNoQuote (encodeSegs (hd :: tl) segs) (hd :: tl) cd none fuel 0 [] []
    ∧ Src.parse (sToL "a,b\nc,d")
        { quote := ['"']
          cols := { delim := some ',', names := [['x'], ['y']], types := [] }
          rows := { delim := ['\n'] } } none none 30
      = some (Except.ok [[[some ['a'], some ['b']], [some ['c'], some ['d']]]]) := by
  constructor
  · have hA := Src.parseNoQuote_encode hd tl cd none segs [] tail [] [] fuel h1 h2 h3
    have hB := Src.parseNoQuote_encode hd tl cd none segs [] [] [] [] fuel h1
      (by simp) h3
    simp only [List.nil_append, List.length_nil, List.append_nil] at hA hB
    rw [hA, hB]
  · decide

/-- The amended C8 instantiated: one terminated row `"a"` followed by the
unterminated tail `"c,d"`. -/
theorem C8_lastRow_amended_witness :
    ((∀ s ∈ [sToL "a"], '\n' ∉ s) ∧ '\n' ∉ sToL "c,d"
      ∧ ([sToL "a"] : List JStr).length + 1 ≤ 5)
    ∧ (Src.parseNoQuote (encodeSegs ['\n'] [sToL "a"] ++ sToL "c,d") ['\n'] (some ',')
          none 5 0 [] []
        = Src.parseNoQuote (encodeSegs ['\n'] [sToL "a"]) ['\n'] (some ',') none 5 0 [] []
      ∧ Src.parse (sToL "a,b\nc,d")
          { quote := ['"']
            cols := { delim := some ',', names := [['x'], ['y']], types := [] }
            rows := { delim := ['\n'] } } none none 30
        = some (Except.ok [[[some ['a'], some ['b']], [some ['c'], some ['d']]]])) :=
  ⟨⟨by decide, by decide, by decide⟩,
    C8_lastRow_amended '\n' [] (some ',') [sToL "a"] (sToL "c,d") 5
      (by decide) (by decide) (by decide)⟩

/-! ## The quoted state machine: run/step lemmas -/

theorem Src.runQ_succ (P : SrcQP) (f : Nat) (cfg : QCfg) :
    Src.runQ P (f + 1) cfg =
      if cfg.pos ≤ P.endPos then
        match Src.stepQ P cfg with
        | QStep.next cfg1 => Src.runQ P f cfg1
        | QStep.ret out => some (Except.ok out)
        | QStep.err => some (Except.error ())
      else some (Except.ok (finishQ cfg)) := rfl

theorem Src.runQ_mono (P : SrcQP) :
    ∀ (f : Nat) (cfg : QCfg) (r : Except Unit (List (List Row))),
      Src.runQ P f cfg = some r → Src.runQ P (f + 1) cfg = some r := by
  intro f
  induction f with
  | zero =>
    intro cfg r h
    simp [Src.runQ] at h
  | succ f ih =>
    intro cfg r h
    rw [Src.runQ_succ] at h ⊢
    by_cases hp : cfg.pos ≤ P.endPos
    · rw [if_pos hp] at h ⊢
      cases hs : Src.stepQ P cfg with
      | next cfg1 =>
        rw [hs] at h
        exact ih cfg1 r h
      | ret out =>
        rw [hs] at h
        exact h
      | err =>
        rw [hs] at h
        exact h
    · rw [if_neg hp] at h ⊢
      exact h

theorem Src.runQ_le (P : SrcQP) (f g : Nat) (cfg : QCfg) (r : Except Unit (List (List Row)))
    (hfg : f ≤ g) (h : Src.runQ P f cfg = some r) : Src.runQ P g cfg = some r := by
  induction g, hfg using Nat.le_induction with
  | base => exact h
  | succ g _ ih => exact Src.runQ_mono P g cfg r ih

theorem Src.steps_single (P : SrcQP) (c c' : QCfg) (h1 : c.pos ≤ P.endPos)
    (h2 : Src.stepQ P c = QStep.next c') : Src.Steps P c c' := by
  refine ⟨1, fun f => ?_⟩
  rw [Src.runQ_succ, if_pos h1, h2]

theorem Src.steps_trans (P : SrcQP) (c c' c'' : QCfg)
    (h1 : Src.Steps P c c') (h2 : Src.Steps P c' c'') : Src.Steps P c c'' := by
  obtain ⟨k1, hk1⟩ := h1
  obtain ⟨k2, hk2⟩ := h2
  refine ⟨k2 + k1, fun f => ?_⟩
  have ha : f + (k2 + k1) = (f + k2) + k1 := by omega
  rw [ha, hk1 (f + k2), hk2 f]

theorem Src.stepQ_inCol2 (P : SrcQP) (cfg : QCfg) (h : cfg.inCol = 2) :
    Src.stepQ P cfg = Src.quotedBody P cfg (jsCharCodeAt P.csv cfg.pos) := by
  unfold Src.stepQ
  rw [h]
  rfl

theorem Src.stepQ_openQuote (P : SrcQP) (cfg : QCfg) (hin : cfg.inCol = 0)
    (hc : jsCharCodeAt P.csv cfg.pos = some quoteChar) :
    Src.stepQ P cfg = Src.stepQ P { cfg with inCol := 2, pos := cfg.pos + 1 } := by
  unfold Src.stepQ
  rw [hin, hc]
  simp [jsEqC]

theorem Src.runQ_eq_of_stepEq (P : SrcQP) (c c' : QCfg)
    (h : Src.stepQ P c = Src.stepQ P c') (hc : c.pos ≤ P.endPos)
    (hc' : c'.pos ≤ P.endPos) (f : Nat) :
    Src.runQ P (f + 1) c = Src.runQ P (f + 1) c' := by
  rw [Src.runQ_succ, Src.runQ_succ, if_pos hc, if_pos hc', h]

/-! ## Doubled-quote escaping: facts about `dqw` and the quoted body -/

theorem dqw_append_nf (a b : JStr) (h : quoteChar ∉ a) : dqw (a ++ b) = a ++ dqw b := by
  induction a with
  | nil => rfl
  | cons c t ih =>
    have hc : ¬ (c = quoteChar) := fun he => h (by simp [he])
    have ht : quoteChar ∉ t := fun he => h (by simp [he])
    rw [List.cons_append]
    simp only [dqw, if_neg hc]
    rw [ih ht, List.cons_append]

theorem dqw_nf (a : JStr) (h : quoteChar ∉ a) : dqw a = a := by
  induction a with
  | nil => rfl
  | cons c t ih =>
    have hc : ¬ (c = quoteChar) := fun he => h (by simp [he])
    have ht : quoteChar ∉ t := fun he => h (by simp [he])
    simp only [dqw, if_neg hc]
    rw [ih ht]

theorem jsIndexOf_append_right (pre a rest : JStr) (c : Char) (h : c ∉ a) :
    jsIndexOf (pre ++ (a ++ (c :: rest))) [c] ((pre.length : Nat) : Int)
      = ((pre.length + a.length : Nat) : Int) := by
  unfold jsIndexOf
  have hmin : min ((pre.length : Int)).toNat (pre ++ (a ++ (c :: rest))).length
      = pre.length := by
    rw [Int.toNat_natCast]
    simp only [List.length_append, List.length_cons]
    omega
  rw [hmin]
  have hfind := findSubFrom_append_right pre a [] rest c h
  rw [List.singleton_append] at hfind
  rw [hfind]

theorem Src.quotedBody_close (P : SrcQP) (pre rest : JStr) (cfg : QCfg)
    (hcsv : P.csv = pre ++ (quoteChar :: rest)) (hpos : cfg.pos = (pre.length : Int))
    (hrest : rest.head? ≠ some quoteChar) :
    Src.quotedBody P cfg (jsCharCodeAt P.csv cfg.pos)
      = QStep.next { cfg with inCol := 0, pos := cfg.pos + 1 } := by
  have hc : jsCharCodeAt P.csv cfg.pos = some quoteChar := by
    rw [hcsv, hpos]
    exact jsCharCodeAt_append_cons pre rest quoteChar
  have hc1 : jsEqC (jsCharCodeAt P.csv (cfg.pos + 1)) (some quoteChar) = false := by
    cases hr : rest with
    | nil =>
      have hnone : jsCharCodeAt P.csv (cfg.pos + 1) = none := by
        apply jsCharCodeAt_ge
        rw [hcsv, hpos, hr]
        simp
      rw [hnone]
      rfl
    | cons c0 r' =>
      have hco : ¬ (c0 = quoteChar) := by
        intro he
        apply hrest
        rw [hr, he]
        rfl
      have hsome : jsCharCodeAt P.csv (cfg.pos + 1) = some c0 := by
        rw [hcsv, hr, hpos]
        have hshape : pre ++ (quoteChar :: c0 :: r')
            = (pre ++ [quoteChar]) ++ c0 :: r' := by simp
        rw [hshape]
        have hl : (pre.length : Int) + 1 = (((pre ++ [quoteChar]).length : Nat) : Int) := by
          simp
        rw [hl]
        exact jsCharCodeAt_append_cons _ _ _
      rw [hsome]
      simp [jsEqC, hco]
  unfold Src.quotedBody
  rw [hc, hc1]
  simp [jsEqC]

theorem Src.quotedBody_doubled (P : SrcQP) (pre rest : JStr) (cfg : QCfg)
    (hcsv : P.csv = pre ++ (quoteChar :: quoteChar :: rest))
    (hpos : cfg.pos = (pre.length : Int)) :
    Src.quotedBody P cfg (jsCharCodeAt P.csv cfg.pos)
      = QStep.next { cfg with v := cfg.v ++ [quoteChar], pos := cfg.pos + 2 } := by
  have hc : jsCharCodeAt P.csv cfg.pos = some quoteChar := by
    rw [hcsv, hpos]
    exact jsCharCodeAt_append_cons pre _ quoteChar
  have hc1 : jsCharCodeAt P.csv (cfg.pos + 1) = some quoteChar := by
    rw [hcsv, hpos]
    have hshape : pre ++ (quoteChar :: quoteChar :: rest)
        = (pre ++ [quoteChar]) ++ (quoteChar :: rest) := by simp
    rw [hshape]
    have hl : (pre.length : Int) + 1 = (((pre ++ [quoteChar]).length : Nat) : Int) := by
      simp
    rw [hl]
    exact jsCharCodeAt_append_cons _ _ _
  unfold Src.quotedBody
  rw [hc, hc1]
  simp [jsEqC]

theorem Src.quotedBody_jump (P : SrcQP) (pre a rest : JStr) (cfg : QCfg)
    (hcsv : P.csv = pre ++ (a ++ (quoteChar :: rest)))
    (hpos : cfg.pos = (pre.length : Int))
    (ha : quoteChar ∉ a) (hne : a ≠ []) :
    Src.quotedBody P cfg (jsCharCodeAt P.csv cfg.pos)
      = QStep.next { cfg with v := cfg.v ++ a,
                              pos := ((pre.length + a.length : Nat) : Int) } := by
  match a, hne with
  | c0 :: a', _ =>
    have hc0 : ¬ (c0 = quoteChar) := fun he => ha (by simp [he])
    have hc : jsCharCodeAt P.csv cfg.pos = some c0 := by
      rw [hcsv, hpos]
      have hshape : pre ++ ((c0 :: a') ++ (quoteChar :: rest))
          = pre ++ (c0 :: (a' ++ quoteChar :: rest)) := by simp
      rw [hshape]
      exact jsCharCodeAt_append_cons _ _ _
    have hidx : jsIndexOf P.csv [quoteChar] cfg.pos
        = ((pre.length + (c0 :: a').length : Nat) : Int) := by
      rw [hcsv, hpos]
      exact jsIndexOf_append_right pre (c0 :: a') rest quoteChar ha
    have hslice : jsSlice P.csv cfg.pos ((pre.length + (c0 :: a').length : Nat) : Int)
        = c0 :: a' := by
      rw [hcsv, hpos]
      exact jsSlice_middle pre (c0 :: a') (quoteChar :: rest)
    unfold Src.quotedBody
    rw [hc]
    have hq : jsEqC (some c0) (some quoteChar) = false := by simp [jsEqC, hc0]
    rw [hq]
    simp only [Bool.false_eq_true, if_false]
    simp only [hidx, hslice]

theorem le_endPos_of_lt (P : SrcQP) (k : Nat) (h : k < P.csv.length) :
    ((k : Nat) : Int) ≤ P.endPos := by
  unfold SrcQP.endPos
  omega

/-- Split a string at its first quote character. -/
theorem quote_decomp (w : JStr) :
    (quoteChar ∉ w) ∨ (∃ a b', w = a ++ quoteChar :: b' ∧ quoteChar ∉ a) := by
  induction w with
  | nil =>
    left
    simp
  | cons c t ih =>
    by_cases hc : c = quoteChar
    · right
      exact ⟨[], t, by rw [hc]; rfl, by simp⟩
    · cases ih with
      | inl h =>
        left
        intro hmem
        rcases List.mem_cons.mp hmem with h' | h'
        · exact hc h'.symm
        · exact h h'
      | inr h =>
        obtain ⟨a, b', he, ha⟩ := h
        right
        refine ⟨c :: a, b', by rw [he]; rfl, ?_⟩
        intro hmem
        rcases List.mem_cons.mp hmem with h' | h'
        · exact hc h'.symm
        · exact ha h'


/-- One close step of the quoted body, with the successor state passed as a
parameter so call sites can discharge the record equality by `simp`. -/
theorem Src.steps_close (P : SrcQP) (pre rest : JStr) (cfg tgt : QCfg)
    (hcsv : P.csv = pre ++ (quoteChar :: rest))
    (hin : cfg.inCol = 2) (hpos : cfg.pos = (pre.length : Int))
    (hrest : rest.head? ≠ some quoteChar)
    (htgt : QStep.next tgt
      = (QStep.next { cfg with inCol := 0, pos := cfg.pos + 1 }
          : QStep QCfg (List (List Row)))) :
    Src.Steps P cfg tgt := by
  apply Src.steps_single
  · rw [hpos]
    apply le_endPos_of_lt
    rw [hcsv]
    simp
  · rw [Src.stepQ_inCol2 P cfg hin, htgt]
    exact Src.quotedBody_close P pre rest cfg hcsv hpos hrest

/-- One doubled-quote step of the quoted body. -/
theorem Src.steps_doubled (P : SrcQP) (pre rest : JStr) (cfg tgt : QCfg)
    (hcsv : P.csv = pre ++ (quoteChar :: quoteChar :: rest))
    (hin : cfg.inCol = 2) (hpos : cfg.pos = (pre.length : Int))
    (htgt : QStep.next tgt
      = (QStep.next { cfg with v := cfg.v ++ [quoteChar], pos := cfg.pos + 2 }
          : QStep QCfg (List (List Row)))) :
    Src.Steps P cfg tgt := by
  apply Src.steps_single
  · rw [hpos]
    apply le_endPos_of_lt
    rw [hcsv]
    simp
  · rw [Src.stepQ_inCol2 P cfg hin, htgt]
    exact Src.quotedBody_doubled P pre rest cfg hcsv hpos

/-- One `indexOf` jump step of the quoted body over a nonempty quote-free
run. -/
theorem Src.steps_jump (P : SrcQP) (pre a rest : JStr) (cfg tgt : QCfg)
    (hcsv : P.csv = pre ++ (a ++ (quoteChar :: rest)))
    (hin : cfg.inCol = 2) (hpos : cfg.pos = (pre.length : Int))
    (ha : quoteChar ∉ a) (hne : a ≠ [])
    (htgt : QStep.next tgt
      = (QStep.next
          { cfg with
            v := cfg.v ++ a
            pos := ((pre.length + a.length : Nat) : Int) }
          : QStep QCfg (List (List Row)))) :
    Src.Steps P cfg tgt := by
  apply Src.steps_single
  · rw [hpos]
    apply le_endPos_of_lt
    rw [hcsv]
    simp only [List.length_append, List.length_cons]
    omega
  · rw [Src.stepQ_inCol2 P cfg hin, htgt]
    exact Src.quotedBody_jump P pre a rest cfg hcsv hpos ha hne

/-- Scanning a quote-free run `a` up to a closing quote: the quoted body
appends `a` to the field (via one `indexOf` jump when `a` is nonempty) and
then leaves the quoted state. -/
theorem Src.steps_scan_nf (P : SrcQP) (pre a rest : JStr) (cfg tgt : QCfg)
    (ha : quoteChar ∉ a)
    (hcsv : P.csv = pre ++ (a ++ (quoteChar :: rest)))
    (hin : cfg.inCol = 2) (hpos : cfg.pos = (pre.length : Int))
    (hrest : rest.head? ≠ some quoteChar)
    (htgt : tgt =
      { cfg with
        inCol := 0
        v := cfg.v ++ a
        pos := ((pre.length + a.length : Nat) : Int) + 1 }) :
    Src.Steps P cfg tgt := by
  by_cases hne : a = []
  · subst hne
    apply Src.steps_close P pre rest cfg tgt ?_ hin hpos hrest ?_
    · rw [hcsv]
      rfl
    · rw [htgt, hpos]
      simp
  · have h1 := Src.steps_jump P pre a rest cfg _ hcsv hin hpos ha hne rfl
    refine Src.steps_trans P cfg _ tgt h1 ?_
    exact Src.steps_close P (pre ++ a) rest { cfg with v := cfg.v ++ a, pos := ((pre.length + a.length : Nat) : Int) } tgt (by rw [hcsv]; simp) hin (by simp) hrest (by rw [htgt])

/-- The quoted-field scan: from the quoted state at the start of the escaped
text `dqw w` followed by the closing quote, the tokenizer appends exactly
`w` to the field accumulator (undoing each doubled quote) and leaves the
quoted state just past the closing quote. -/
theorem Src.quotedScan (P : SrcQP) :
    ∀ (n : Nat) (w pre rest : JStr) (cfg tgt : QCfg), w.length ≤ n →
      P.csv = pre ++ (dqw w ++ (quoteChar :: rest)) →
      cfg.inCol = 2 → cfg.pos = (pre.length : Int) →
      rest.head? ≠ some quoteChar →
      tgt =
        { cfg with
          inCol := 0
          v := cfg.v ++ w
          pos := ((pre.length + (dqw w).length : Nat) : Int) + 1 } →
      Src.Steps P cfg tgt := by
  intro n
  induction n with
  | zero =>
    intro w pre rest cfg tgt hw hcsv hin hpos hrest htgt
    have hwnil : w = [] := List.length_eq_zero.mp (Nat.le_zero.mp hw)
    subst hwnil
    exact Src.steps_scan_nf P pre [] rest cfg tgt (by simp) (by rw [hcsv]; rfl) hin hpos
      hrest (by rw [htgt]; rfl)
  | succ n ih =>
    intro w pre rest cfg tgt hw hcsv hin hpos hrest htgt
    rcases quote_decomp w with hnf | ⟨a, b', hw', ha⟩
    · exact Src.steps_scan_nf P pre w rest cfg tgt hnf (by rw [hcsv, dqw_nf w hnf]) hin
        hpos hrest (by rw [htgt, dqw_nf w hnf])
    · have hdq : dqw w = a ++ (quoteChar :: quoteChar :: dqw b') := by
        rw [hw', dqw_append_nf a _ ha]
        simp [dqw]
      have hcsv1 : P.csv
          = pre ++ (a ++ (quoteChar :: quoteChar :: (dqw b' ++ (quoteChar :: rest)))) := by
        rw [hcsv, hdq]
        simp
      have hlb : b'.length ≤ n := by
        have hlw := congrArg List.length hw'
        simp at hlw
        omega
      by_cases hane : a = []
      · subst hane
        have h1 := Src.steps_doubled P pre (dqw b' ++ (quoteChar :: rest)) cfg
          { cfg with v := cfg.v ++ [quoteChar], pos := cfg.pos + 2 }
          (by rw [hcsv1]; rfl) hin hpos rfl
        refine Src.steps_trans P cfg _ tgt h1 ?_
        refine ih b' (pre ++ [quoteChar, quoteChar]) rest _ tgt hlb ?_ hin ?_ hrest ?_
        · rw [hcsv1]
          simp
        · show cfg.pos + 2 = (((pre ++ [quoteChar, quoteChar]).length : Nat) : Int)
          rw [hpos]
          simp
        · rw [htgt]
          congr 1
          · have hlen : pre.length + (dqw w).length
                = (pre ++ [quoteChar, quoteChar]).length + (dqw b').length := by
              rw [hdq]
              simp
              omega
            rw [hlen]
          · rw [hw']
            simp
      · have h1 := Src.steps_jump P pre a (quoteChar :: (dqw b' ++ (quoteChar :: rest))) cfg
          { cfg with v := cfg.v ++ a, pos := ((pre.length + a.length : Nat) : Int) }
          (by rw [hcsv1]) hin hpos ha hane rfl
        refine Src.steps_trans P cfg _ tgt h1 ?_
        have h2 := Src.steps_doubled P (pre ++ a) (dqw b' ++ (quoteChar :: rest))
          { cfg with v := cfg.v ++ a, pos := ((pre.length + a.length : Nat) : Int) } _
          (by rw [hcsv1]; simp) hin (by simp) rfl
        refine Src.steps_trans P _ _ tgt h2 ?_
        refine ih b' (pre ++ a ++ [quoteChar, quoteChar]) rest _ tgt hlb ?_ hin ?_ hrest ?_
        · rw [hcsv1]
          simp
        · show ((pre.length + a.length : Nat) : Int) + 2
            = (((pre ++ a ++ [quoteChar, quoteChar]).length : Nat) : Int)
          simp
          omega
        · rw [htgt]
          congr 1
          · have hlen : pre.length + (dqw w).length
                = (pre ++ a ++ [quoteChar, quoteChar]).length + (dqw b').length := by
              rw [hdq]
              simp
              omega
            rw [hlen]
          · rw [hw']
            simp

theorem encodeQuoted_length (w : JStr) : (encodeQuoted w).length = (dqw w).length + 2 := by
  simp [encodeQuoted]

/-! ## Claim C9 — doubled quotes inside a quoted field -/

/-- C9: for every field value `w`, the quoted encoding (wrap in quotes,
double every quote) tokenizes back to exactly `w` on the quoted path —
each doubled quote becomes one literal quote; in particular the field
written `"He said ""hi"""` parses to the value `He said "hi"`. -/
theorem C9_doubledQuotes :
    (∀ w : JStr, ∃ N, ∀ fuel, N ≤ fuel →
      Src.parse (encodeQuoted w)
          { quote := ['"']
            cols := { delim := some ',', names := [['x']], types := [] }
            rows := { delim := ['\n'] } } none none fuel
        = some (Except.ok [[[some w]]]))
    ∧ Src.parse (sToL "\"He said \"\"hi\"\"\"")
        { quote := ['"']
          cols := { delim := some ',', names := [['x']], types := [] }
          rows := { delim := ['\n'] } } none none 40
      = some (Except.ok [[[some (sToL "He said \"hi\"")]]]) := by
  constructor
  · intro w
    have hlen : (encodeQuoted w).length = (dqw w).length + 2 := encodeQuoted_length w
    obtain ⟨k, hk⟩ := Src.quotedScan (qp1 (encodeQuoted w)) w.length w [quoteChar] []
      qcfg1 _ (Nat.le_refl _) rfl rfl rfl (by simp) rfl
    have hrun : Src.runQ (qp1 (encodeQuoted w)) (1 + k) qcfg1
        = some (Except.ok [[[some w]]]) := by
      rw [hk 1, Src.runQ_succ]
      have hcond : ¬ (((([quoteChar].length + (dqw w).length : Nat) : Int) + 1)
          ≤ (qp1 (encodeQuoted w)).endPos) := by
        show ¬ (((([quoteChar].length + (dqw w).length : Nat) : Int) + 1)
          ≤ (((encodeQuoted w).length : Nat) : Int) - 1)
        rw [hlen]
        simp only [List.length_cons, List.length_nil]
        push_cast
        omega
      rw [if_neg hcond]
      simp [finishQ, qcfg1, initQCfg, jsArrSet]
    have hc : jsCharCodeAt (qp1 (encodeQuoted w)).csv (initQCfg 1).pos
        = some quoteChar := by
      show jsCharCodeAt (encodeQuoted w) ((0 : Nat) : Int) = some quoteChar
      have h := jsCharCodeAt_append_cons [] (dqw w ++ [quoteChar]) quoteChar
      simpa [encodeQuoted] using h
    have hstep : Src.stepQ (qp1 (encodeQuoted w)) (initQCfg 1)
        = Src.stepQ (qp1 (encodeQuoted w)) qcfg1 := by
      have heq : qcfg1 = { initQCfg 1 with inCol := 2, pos := (initQCfg 1).pos + 1 } := by
        decide
      rw [heq]
      exact Src.stepQ_openQuote (qp1 (encodeQuoted w)) (initQCfg 1) rfl hc
    have hc0 : (initQCfg 1).pos ≤ (qp1 (encodeQuoted w)).endPos := by
      show (0 : Int) ≤ (((encodeQuoted w).length : Nat) : Int) - 1
      rw [hlen]
      push_cast
      omega
    have hc1 : qcfg1.pos ≤ (qp1 (encodeQuoted w)).endPos := by
      show (1 : Int) ≤ (((encodeQuoted w).length : Nat) : Int) - 1
      rw [hlen]
      push_cast
      omega
    have h0 : Src.runQ (qp1 (encodeQuoted w)) (k + 1) (initQCfg 1)
        = some (Except.ok [[[some w]]]) := by
      rw [Src.runQ_eq_of_stepEq (qp1 (encodeQuoted w)) (initQCfg 1) qcfg1 hstep hc0 hc1 k]
      rw [Nat.add_comm k 1]
      exact hrun
    refine ⟨k + 1, fun fuel hfuel => ?_⟩
    exact Src.runQ_le (qp1 (encodeQuoted w)) (k + 1) fuel (initQCfg 1) _ hfuel h0
  · decide

/-! ## Claim C10 machinery: the loop never exits mid-field when the input
ends with the row delimiter -/

theorem jsEqC_true_iff (a : Option Char) (y : Char) :
    jsEqC a (some y) = true ↔ a = some y := by
  cases a with
  | none => simp [jsEqC]
  | some x => simp [jsEqC]

theorem jsCharCodeAt_some_range (s : JStr) (i : Int) (c : Char)
    (h : jsCharCodeAt s i = some c) : 0 ≤ i ∧ i < (s.length : Int) := by
  unfold jsCharCodeAt at h
  by_cases hh : 0 ≤ i ∧ i < (s.length : Int)
  · exact hh
  · rw [dif_neg hh] at h
    cases h

theorem jsCharCodeAt_last (ys : JStr) (rd : Char) :
    jsCharCodeAt (ys ++ [rd]) (((ys ++ [rd]).length : Int) - 1) = some rd := by
  have h := jsCharCodeAt_append_cons ys [] rd
  have hl : (((ys ++ [rd]).length : Int) - 1) = ((ys.length : Nat) : Int) := by
    simp
  rw [hl]
  exact h

theorem jsIndexOf_le_sub_one (hay needle : JStr) (p : Int)
    (hne : needle ≠ []) (hhay : hay ≠ []) :
    jsIndexOf hay needle p ≤ (hay.length : Int) - 1 := by
  unfold jsIndexOf
  have h1 : 1 ≤ hay.length := List.length_pos.mpr hhay
  cases hf : findSubFrom hay needle (min p.toNat hay.length) with
  | none =>
    show (-1 : Int) ≤ (hay.length : Int) - 1
    omega
  | some n =>
    have hb := (findSubFrom_bound hay needle _ n hf).2.1
    have hnl : 1 ≤ needle.length := List.length_pos.mpr hne
    show ((n : Nat) : Int) ≤ (hay.length : Int) - 1
    omega

theorem jsIndexOf_last_found (ys : JStr) (rd : Char) (p : Int)
    (hp : p ≤ ((ys ++ [rd]).length : Int) - 1) :
    ∃ n : Nat, jsIndexOf (ys ++ [rd]) [rd] p = (n : Int) := by
  have hstart : min p.toNat (ys ++ [rd]).length ≤ ys.length := by
    simp only [List.length_append, List.length_cons, List.length_nil] at hp ⊢
    omega
  have hpre : [rd].isPrefixOf ((ys ++ [rd]).drop ys.length) := by
    rw [List.drop_left]
    simp [List.isPrefixOf]
  obtain ⟨n, hn⟩ := findSubFrom_isSome (ys ++ [rd]) [rd] ys.length hpre (by simp) _ hstart
  refine ⟨n, ?_⟩
  unfold jsIndexOf
  rw [hn]

theorem Src.stepQ_inCol1 (P : SrcQP) (cfg : QCfg) (h : cfg.inCol = 1) :
    Src.stepQ P cfg = Src.unquotedBody P cfg (jsCharCodeAt P.csv cfg.pos) := by
  unfold Src.stepQ
  rw [h]
  rfl

theorem Src.stepQ_inCol0_delim (P : SrcQP) (cfg : QCfg) (hin : cfg.inCol = 0)
    (hq : jsEqC (jsCharCodeAt P.csv cfg.pos) (some quoteChar) = false)
    (hd : (jsEqC (jsCharCodeAt P.csv cfg.pos) (some P.colDelim)
        || jsEqC (jsCharCodeAt P.csv cfg.pos) P.rdChar) = true) :
    Src.stepQ P cfg = Src.pushMacro P cfg (jsCharCodeAt P.csv cfg.pos) := by
  simp [Src.stepQ, hin, hq, hd]

theorem Src.stepQ_inCol0_other (P : SrcQP) (cfg : QCfg) (hin : cfg.inCol = 0)
    (hq : jsEqC (jsCharCodeAt P.csv cfg.pos) (some quoteChar) = false)
    (hd : (jsEqC (jsCharCodeAt P.csv cfg.pos) (some P.colDelim)
        || jsEqC (jsCharCodeAt P.csv cfg.pos) P.rdChar) = false) :
    Src.stepQ P cfg
      = Src.unquotedBody P { cfg with inCol := 1 } (jsCharCodeAt P.csv cfg.pos) := by
  simp [Src.stepQ, hin, hq, hd]

theorem Src.stepQ_other (P : SrcQP) (cfg : QCfg) (h0 : ¬ cfg.inCol = 0)
    (h2 : ¬ cfg.inCol = 2) (h1 : ¬ cfg.inCol = 1) :
    Src.stepQ P cfg = QStep.next cfg := by
  simp [Src.stepQ, h0, h2, h1]

/-- When the input ends with the row delimiter, the PUSH MACRO (with no row
limit) always continues the loop, and whenever it moves the position past
the end of input it has just pushed a row and fully reset the row state. -/
theorem Src.pushMacro_inv (P : SrcQP) (ys : JStr) (rd : Char) (cfg : QCfg)
    (hcsv : P.csv = ys ++ [rd]) (hrd : P.rowDelim = [rd]) (hlim : P.limit = none)
    (hpos : cfg.pos ≤ P.endPos) :
    ∃ cfg1, Src.pushMacro P cfg (jsCharCodeAt P.csv cfg.pos) = QStep.next cfg1
      ∧ C10Inv P cfg1 := by
  have hrdc : P.rdChar = some rd := by
    simp [SrcQP.rdChar, hrd]
  simp only [Src.pushMacro]
  by_cases hb : jsEqC (jsCharCodeAt P.csv cfg.pos) P.rdChar = true
  · rw [if_pos hb, hlim]
    rw [if_neg (by simp)]
    refine ⟨_, rfl, ?_⟩
    intro hgt
    exact ⟨rfl, rfl, rfl⟩
  · rw [Bool.not_eq_true] at hb
    rw [if_neg (by simp [hb])]
    refine ⟨_, rfl, ?_⟩
    intro hgt
    exfalso
    have hE : P.endPos = (P.csv.length : Int) - 1 := rfl
    have hpe : cfg.pos = P.endPos := by
      have hshow : P.endPos < cfg.pos + 1 := hgt
      omega
    have hE2 : P.endPos = (((ys ++ [rd]).length : Nat) : Int) - 1 := by
      rw [hE, hcsv]
    have hrdlast : jsCharCodeAt P.csv cfg.pos = some rd := by
      rw [hpe, hcsv, hE2]
      exact jsCharCodeAt_last ys rd
    rw [hrdlast, hrdc] at hb
    simp [jsEqC] at hb

/-- When the input ends with the row delimiter (which is not the quote
character), the quoted-field body never moves the scan position past the end
of the input. -/
theorem Src.quotedBody_inv (P : SrcQP) (ys : JStr) (rd : Char) (cfg : QCfg)
    (hcsv : P.csv = ys ++ [rd]) (hrdq : rd ≠ quoteChar)
    (hpos : cfg.pos ≤ P.endPos) :
    ∃ cfg1, Src.quotedBody P cfg (jsCharCodeAt P.csv cfg.pos) = QStep.next cfg1
      ∧ cfg1.pos ≤ P.endPos := by
  have hE : P.endPos = (P.csv.length : Int) - 1 := rfl
  have hE2 : P.endPos = (((ys ++ [rd]).length : Nat) : Int) - 1 := by
    rw [hE, hcsv]
  have hlastc : jsCharCodeAt P.csv P.endPos = some rd := by
    rw [hcsv, hE2]
    exact jsCharCodeAt_last ys rd
  unfold Src.quotedBody
  by_cases hq : jsEqC (jsCharCodeAt P.csv cfg.pos) (some quoteChar) = true
  · rw [if_pos hq]
    have hcq : jsCharCodeAt P.csv cfg.pos = some quoteChar := (jsEqC_true_iff _ _).mp hq
    have hrange := jsCharCodeAt_some_range P.csv cfg.pos _ hcq
    have hpneq : cfg.pos ≠ P.endPos := by
      intro he
      rw [he, hlastc] at hcq
      exact hrdq (Option.some.inj hcq)
    by_cases hq2 : jsEqC (jsCharCodeAt P.csv (cfg.pos + 1)) (some quoteChar) = true
    · rw [if_pos hq2]
      refine ⟨_, rfl, ?_⟩
      have hcq2 : jsCharCodeAt P.csv (cfg.pos + 1) = some quoteChar :=
        (jsEqC_true_iff _ _).mp hq2
      have hrange2 := jsCharCodeAt_some_range P.csv (cfg.pos + 1) _ hcq2
      have hpneq2 : cfg.pos + 1 ≠ P.endPos := by
        intro he
        rw [he, hlastc] at hcq2
        exact hrdq (Option.some.inj hcq2)
      show cfg.pos + 2 ≤ P.endPos
      omega
    · rw [if_neg hq2]
      refine ⟨_, rfl, ?_⟩
      show cfg.pos + 1 ≤ P.endPos
      omega
  · rw [if_neg hq]
    refine ⟨_, rfl, ?_⟩
    show jsIndexOf P.csv [quoteChar] cfg.pos ≤ P.endPos
    have h := jsIndexOf_le_sub_one P.csv [quoteChar] cfg.pos (by simp)
      (by rw [hcsv]; simp)
    rw [hE]
    exact h

/-- When the input ends with the row delimiter, the unquoted-field body
(probe off, no row limit) always continues, and moves the position past the
end of the input only through the row-delimiter PUSH (which resets the row
state). -/
theorem Src.unquotedBody_inv (P : SrcQP) (ys : JStr) (rd : Char) (cfg : QCfg)
    (hcsv : P.csv = ys ++ [rd]) (hrd : P.rowDelim = [rd]) (hlim : P.limit = none)
    (hprobe : P.probe = false) (hpos : cfg.pos ≤ P.endPos) :
    ∃ cfg1, Src.unquotedBody P cfg (jsCharCodeAt P.csv cfg.pos) = QStep.next cfg1
      ∧ C10Inv P cfg1 := by
  have hE : P.endPos = (P.csv.length : Int) - 1 := rfl
  have hE2 : P.endPos = (((ys ++ [rd]).length : Nat) : Int) - 1 := by
    rw [hE, hcsv]
  by_cases hd : (jsEqC (jsCharCodeAt P.csv cfg.pos) (some P.colDelim)
      || jsEqC (jsCharCodeAt P.csv cfg.pos) P.rdChar) = true
  · unfold Src.unquotedBody
    rw [if_pos hd]
    exact Src.pushMacro_inv P ys rd cfg hcsv hrd hlim hpos
  · rw [Bool.not_eq_true] at hd
    unfold Src.unquotedBody
    rw [if_neg (by simp [hd])]
    rw [if_neg (by simp [hprobe])]
    by_cases hci : (cfg.colIdx : Int) = (P.numCols : Int) - 1
    · rw [if_pos hci, hrd, hcsv]
      obtain ⟨n, hn⟩ := jsIndexOf_last_found ys rd cfg.pos (by rw [← hE2]; exact hpos)
      simp only [hn]
      rw [if_neg (by omega)]
      refine ⟨_, rfl, ?_⟩
      intro hgt
      exfalso
      have hle := jsIndexOf_le_sub_one (ys ++ [rd]) [rd] cfg.pos (by simp) (by simp)
      rw [hn] at hle
      have hgt' : P.endPos < ((n : Nat) : Int) := hgt
      rw [hE2] at hgt'
      omega
    · rw [if_neg hci]
      refine ⟨_, rfl, ?_⟩
      intro hgt
      exfalso
      have hle := jsIndexOf_le_sub_one P.csv [P.colDelim] cfg.pos (by simp)
        (by rw [hcsv]; simp)
      have hgt' : P.endPos < jsIndexOf P.csv [P.colDelim] cfg.pos := hgt
      rw [hE] at hgt'
      omega

/-- When the input ends with its (single-character) row delimiter, every
in-loop step of the quoted-path tokenizer (probe off, no row limit)
continues, and can leave the loop only right after pushing a row, with the
row state reset. -/
theorem Src.stepQ_inv (P : SrcQP) (ys : JStr) (rd : Char) (cfg : QCfg)
    (hcsv : P.csv = ys ++ [rd]) (hrd : P.rowDelim = [rd]) (hrdq : rd ≠ quoteChar)
    (hlim : P.limit = none) (hprobe : P.probe = false)
    (hpos : cfg.pos ≤ P.endPos) :
    ∃ cfg1, Src.stepQ P cfg = QStep.next cfg1 ∧ C10Inv P cfg1 := by
  have hE : P.endPos = (P.csv.length : Int) - 1 := rfl
  have hE2 : P.endPos = (((ys ++ [rd]).length : Nat) : Int) - 1 := by
    rw [hE, hcsv]
  have hlastc : jsCharCodeAt P.csv P.endPos = some rd := by
    rw [hcsv, hE2]
    exact jsCharCodeAt_last ys rd
  by_cases h0 : cfg.inCol = 0
  · by_cases hq : jsEqC (jsCharCodeAt P.csv cfg.pos) (some quoteChar) = true
    · have hcq : jsCharCodeAt P.csv cfg.pos = some quoteChar := (jsEqC_true_iff _ _).mp hq
      have hso := Src.stepQ_openQuote P cfg h0 hcq
      have h2i : ({ cfg with inCol := 2, pos := cfg.pos + 1 } : QCfg).inCol = 2 := rfl
      rw [hso, Src.stepQ_inCol2 P _ h2i]
      have hrange := jsCharCodeAt_some_range P.csv cfg.pos _ hcq
      have hpneq : cfg.pos ≠ P.endPos := by
        intro he
        rw [he, hlastc] at hcq
        exact hrdq (Option.some.inj hcq)
      have hpos2 : ({ cfg with inCol := 2, pos := cfg.pos + 1 } : QCfg).pos ≤ P.endPos := by
        show cfg.pos + 1 ≤ P.endPos
        omega
      obtain ⟨cfg1, he, hle⟩ := Src.quotedBody_inv P ys rd _ hcsv hrdq hpos2
      exact ⟨cfg1, he, fun hgt => absurd hle (by omega)⟩
    · rw [Bool.not_eq_true] at hq
      by_cases hdl : (jsEqC (jsCharCodeAt P.csv cfg.pos) (some P.colDelim)
          || jsEqC (jsCharCodeAt P.csv cfg.pos) P.rdChar) = true
      · rw [Src.stepQ_inCol0_delim P cfg h0 hq hdl]
        exact Src.pushMacro_inv P ys rd cfg hcsv hrd hlim hpos
      · rw [Bool.not_eq_true] at hdl
        rw [Src.stepQ_inCol0_other P cfg h0 hq hdl]
        exact Src.unquotedBody_inv P ys rd { cfg with inCol := 1 } hcsv hrd hlim
          hprobe hpos
  · by_cases h2 : cfg.inCol = 2
    · rw [Src.stepQ_inCol2 P cfg h2]
      obtain ⟨cfg1, he, hle⟩ := Src.quotedBody_inv P ys rd cfg hcsv hrdq hpos
      exact ⟨cfg1, he, fun hgt => absurd hle (by omega)⟩
    · by_cases h1 : cfg.inCol = 1
      · rw [Src.stepQ_inCol1 P cfg h1]
        exact Src.unquotedBody_inv P ys rd cfg hcsv hrd hlim hprobe hpos
      · rw [Src.stepQ_other P cfg h0 h2 h1]
        exact ⟨cfg, rfl, fun hgt => absurd hpos (by omega)⟩

/-- Fuel induction: a completed run on an input ending with the row
delimiter returns chunks whose last row is the trailing phantom row. -/
theorem Src.runQ_phantom (P : SrcQP) (ys : JStr) (rd : Char)
    (hcsv : P.csv = ys ++ [rd]) (hrd : P.rowDelim = [rd]) (hrdq : rd ≠ quoteChar)
    (hlim : P.limit = none) (hprobe : P.probe = false) :
    ∀ (fuel : Nat) (cfg : QCfg) (r : Except Unit (List (List Row))),
      Src.runQ P fuel cfg = some r → C10Inv P cfg →
      ∃ ch ra, r = Except.ok (ch ++ [ra ++ [phantomRow P.numCols]]) := by
  intro fuel
  induction fuel with
  | zero =>
    intro cfg r h _
    simp [Src.runQ] at h
  | succ f ih =>
    intro cfg r h hinv
    rw [Src.runQ_succ] at h
    by_cases hp : cfg.pos ≤ P.endPos
    · rw [if_pos hp] at h
      obtain ⟨cfg1, hstep, hinv1⟩ := Src.stepQ_inv P ys rd cfg hcsv hrd hrdq hlim
        hprobe hp
      rw [hstep] at h
      exact ih cfg1 r h hinv1
    · rw [if_neg hp] at h
      obtain ⟨hv, hci, hrow⟩ := hinv (by omega)
      cases h
      refine ⟨cfg.chunks, cfg.rows, ?_⟩
      unfold finishQ
      rw [hv, hci, hrow]
      rfl

/-! ## Claim C10 — the trailing phantom row -/

/-- C10: for every input that ends with the (single-character, non-quote)
row delimiter, parsed on the quoted state-machine path with no row limit,
the result ends with one extra trailing row: the reset row buffer with the
empty string committed at index 0 and every other slot left unset. -/
theorem C10_phantomRow (ys : JStr) (rd cd : Char) (names : List JStr)
    (fuel : Nat) (r : Except Unit (List (List Row)))
    (hrdq : rd ≠ quoteChar)
    (hrun : Src.parse (ys ++ [rd])
        { quote := ['"']
          cols := { delim := some cd, names := names, types := [] }
          rows := { delim := [rd] } } none none fuel = some r) :
    ∃ ch ra, r = Except.ok (ch ++ [ra ++ [phantomRow names.length]]) := by
  have hrun' : Src.runQ (qpC10 ys rd cd names.length) fuel (initQCfg names.length)
      = some r := hrun
  have hinv0 : C10Inv (qpC10 ys rd cd names.length) (initQCfg names.length) := by
    intro hgt
    exfalso
    have hE : (qpC10 ys rd cd names.length).endPos
        = (((ys ++ [rd]).length : Nat) : Int) - 1 := rfl
    have hp0 : (initQCfg names.length).pos = 0 := rfl
    rw [hE, hp0] at hgt
    simp only [List.length_append, List.length_cons, List.length_nil] at hgt
    omega
  exact Src.runQ_phantom (qpC10 ys rd cd names.length) ys rd rfl rfl hrdq rfl rfl
    fuel (initQCfg names.length) r hrun' hinv0

/-- C10 instantiated on `"a,b\n"` with two declared columns: the emitted
rows are `["a","b"]` and the phantom `["", hole]`. -/
theorem C10_phantomRow_witness :
    '\n' ≠ quoteChar
    ∧ Src.parse (sToL "a,b" ++ ['\n'])
        { quote := ['"']
          cols := { delim := some ',', names := [['x'], ['y']], types := [] }
          rows := { delim := ['\n'] } } none none 30
      = some (Except.ok [[[some ['a'], some ['b']], [some [], none]]])
    ∧ ∃ ch ra, (Except.ok [[[some ['a'], some ['b']], [some [], none]]]
          : Except Unit (List (List Row)))
        = Except.ok (ch ++ [ra ++ [phantomRow 2]]) :=
  ⟨by decide, by decide,
    C10_phantomRow (sToL "a,b") '\n' ',' [['x'], ['y']] 30 _ (by decide) (by decide)⟩
